import Mathlib

/-!
Verification of the ledger subsystem of my-first-bank-app.

The repository ships a React Native frontend (deposit screen, account screen,
currency utilities, API client) and documents a FastAPI backend; the backend
implementation itself is not present in the source tree (the backend directory
holds only a README).  Definitions below therefore come from two places:
frontend code is embedded directly from the TypeScript sources, while the
server-side Deposit Processor and Transaction Reader are modelled from the
specification, as indicated in each doc comment.
-/

namespace Bank

/-! ## Decimal digit rendering and parsing

Models the decimal rendering used by JavaScript number-to-string conversion
for nonnegative integers (template literals, toFixed output) together with the
corresponding digit-string parser.  Defined with explicit fuel so that the
functions compute by structural recursion. -/

/-- Fueled digit renderer; with fuel above the input the result is the usual
most-significant-first decimal digit list. -/
def natDigitsAux : Nat → Nat → List Char
  | 0, _ => []
  | fuel + 1, n =>
    if n < 10 then [Nat.digitChar n]
    else natDigitsAux fuel (n / 10) ++ [Nat.digitChar (n % 10)]

/-- Decimal digit characters of a natural number, most significant first. -/
def natDigits (n : Nat) : List Char := natDigitsAux (n + 1) n

/-- Numeric value of a decimal digit character. -/
def digitVal (c : Char) : Nat := c.toNat - 48

/-- Value of a most-significant-first list of decimal digit characters. -/
def digitsVal (cs : List Char) : Nat :=
  cs.foldl (fun acc c => 10 * acc + digitVal c) 0

/-- Decimal string of a natural number; models JavaScript integer
stringification. -/
def natToString (n : Nat) : String := String.mk (natDigits n)

lemma natDigitsAux_fuel_irrel :
    ∀ n fuel fuel', n < fuel → n < fuel' →
      natDigitsAux fuel n = natDigitsAux fuel' n := by
  intro n
  induction n using Nat.strong_induction_on with
  | _ n ih =>
    intro fuel fuel' h h'
    match fuel, fuel' with
    | f + 1, f' + 1 =>
      simp only [natDigitsAux]
      by_cases h10 : n < 10
      · simp [h10]
      · simp only [h10, if_false]
        have hlt : n / 10 < n := Nat.div_lt_self (by omega) (by omega)
        rw [ih (n / 10) hlt f f' (by omega) (by omega)]

lemma natDigits_eq (n : Nat) :
    natDigits n =
      if n < 10 then [Nat.digitChar n]
      else natDigits (n / 10) ++ [Nat.digitChar (n % 10)] := by
  unfold natDigits
  conv_lhs => rw [natDigitsAux]
  by_cases h10 : n < 10
  · simp [h10]
  · simp only [h10, if_false]
    have hlt : n / 10 < n := Nat.div_lt_self (by omega) (by omega)
    rw [natDigitsAux_fuel_irrel (n / 10) n (n / 10 + 1) (by omega) (by omega)]

lemma digitVal_digitChar (k : Nat) (h : k < 10) :
    digitVal (Nat.digitChar k) = k := by
  have H : ∀ j : Fin 10, digitVal (Nat.digitChar j.val) = j.val := by decide
  exact H ⟨k, h⟩

lemma digitChar_isDigit (k : Nat) (h : k < 10) :
    (Nat.digitChar k).isDigit = true := by
  have H : ∀ j : Fin 10, (Nat.digitChar j.val).isDigit = true := by decide
  exact H ⟨k, h⟩

lemma digitChar_ne_underscore (k : Nat) (h : k < 10) :
    Nat.digitChar k ≠ '_' := by
  have H : ∀ j : Fin 10, Nat.digitChar j.val ≠ '_' := by decide
  exact H ⟨k, h⟩

lemma natDigits_ne_nil (n : Nat) : natDigits n ≠ [] := by
  rw [natDigits_eq]
  by_cases h10 : n < 10 <;> simp [h10]

lemma natDigits_all_digits (n : Nat) :
    ∀ c ∈ natDigits n, c.isDigit = true := by
  induction n using Nat.strong_induction_on with
  | _ n ih =>
    rw [natDigits_eq]
    by_cases h10 : n < 10
    · simp only [h10, if_true, List.mem_singleton]
      rintro c rfl
      exact digitChar_isDigit n h10
    · simp only [h10, if_false, List.mem_append, List.mem_singleton]
      rintro c (hc | rfl)
      · exact ih (n / 10) (Nat.div_lt_self (by omega) (by omega)) c hc
      · exact digitChar_isDigit (n % 10) (Nat.mod_lt _ (by omega))

lemma natDigits_no_underscore (n : Nat) : '_' ∉ natDigits n := by
  intro h
  have := natDigits_all_digits n '_' h
  simp [Char.isDigit] at this

lemma digitsVal_append_singleton (l : List Char) (c : Char) :
    digitsVal (l ++ [c]) = 10 * digitsVal l + digitVal c := by
  simp [digitsVal, List.foldl_append]

lemma digitsVal_natDigits (n : Nat) : digitsVal (natDigits n) = n := by
  induction n using Nat.strong_induction_on with
  | _ n ih =>
    rw [natDigits_eq]
    by_cases h10 : n < 10
    · simp only [h10, if_true]
      simp [digitsVal, digitVal_digitChar n h10]
    · simp only [h10, if_false]
      rw [digitsVal_append_singleton,
        ih (n / 10) (Nat.div_lt_self (by omega) (by omega)),
        digitVal_digitChar (n % 10) (Nat.mod_lt _ (by omega))]
      omega

lemma natDigits_injective {m n : Nat} (h : natDigits m = natDigits n) :
    m = n := by
  have := congrArg digitsVal h
  rwa [digitsVal_natDigits, digitsVal_natDigits] at this

/-! ## Currency utilities

Embedding of src/frontend/src/utils/currency.ts.  JavaScript numbers are
IEEE-754 binary64 values; every arithmetic step of the utilities is
modelled with an explicit round-to-nearest onto the 53-bit-significand
grid (fl below), so the model rounds exactly where the program does.  The
values reached stay well inside the normal finite double range, so
overflow, subnormals and exponent notation are not modelled.  NaN and
non-number arguments are modelled as the none case of an Option. -/

/-- Largest power-of-two exponent of a positive rational: the unique k
with 2 ^ k ≤ x < 2 ^ (k + 1). -/
def qexp (x : ℚ) : ℤ :=
  if x < 2 ^ ((Nat.log 2 x.num.toNat : ℤ) - (Nat.log 2 x.den : ℤ))
  then (Nat.log 2 x.num.toNat : ℤ) - (Nat.log 2 x.den : ℤ) - 1
  else (Nat.log 2 x.num.toNat : ℤ) - (Nat.log 2 x.den : ℤ)

/-- Round a rational to the nearest integer, ties to even: the IEEE-754
default rounding applied to the scaled significand. -/
def roundHalfEven (y : ℚ) : ℤ :=
  if Int.fract y < 1 / 2 then ⌊y⌋
  else if 1 / 2 < Int.fract y then ⌊y⌋ + 1
  else if ⌊y⌋ % 2 = 0 then ⌊y⌋ else ⌊y⌋ + 1

/-- Round a nonnegative rational to the nearest IEEE-754 binary64 value:
scale into the 53-bit significand range, round to nearest ties to even,
scale back. -/
def flPos (x : ℚ) : ℚ :=
  if x ≤ 0 then 0
  else (roundHalfEven (x / 2 ^ (qexp x - 52)) : ℚ) * 2 ^ (qexp x - 52)

/-- Round a rational to the nearest binary64 value (sign-symmetric). -/
def fl (x : ℚ) : ℚ := if x < 0 then -flPos (-x) else flPos x

/-- Models Math.round: the closest integer, ties toward the larger. -/
def jsRound (q : ℚ) : Int := ⌊q + 1 / 2⌋

/-- Decimal rendering of a nonnegative hundredths count n: the digit
characters of n / 100, a dot, then exactly two fractional digit
characters; the shape of a toFixed(2) result. -/
def natFixed2 (c : Nat) : List Char :=
  natDigits (c / 100) ++ '.' :: [Nat.digitChar (c % 100 / 10), Nat.digitChar (c % 100 % 10)]

/-- toFixed(2) of a double value d: per the specification the sign is
split off first, then the integer closest to 100 times the value is
chosen (ties toward the larger) and rendered with two decimals. -/
def toFixed2 (d : ℚ) : List Char :=
  if d < 0 then '-' :: natFixed2 (jsRound (100 * -d)).toNat
  else natFixed2 (jsRound (100 * d)).toNat

/-- Embeds formatCurrency from src/frontend/src/utils/currency.ts: the
division cents / 100 rounds once to a double, which toFixed(2) prints.
A none input models a NaN or non-number argument (the typeof and isNaN
guard in the source); integer cents are the intended domain. -/
def formatCurrency : Option Int → String
  | none => "$0.00"
  | some cents => String.mk ('$' :: toFixed2 (fl ((cents : ℚ) / 100)))

/-- Embeds the replace call stripping dollar signs and commas in
parseCurrencyToCents. -/
def stripCurrencyChars (cs : List Char) : List Char :=
  cs.filter (fun ch => !(ch == '$' || ch == ','))

/-- Exact value of an unsigned decimal literal prefix of a character
list: integer digits, optionally a dot and fraction digits.  Fails when
neither side of the dot has a digit, mirroring parseFloat returning NaN. -/
def parseUnsignedQ (cs : List Char) : Option ℚ :=
  let ds := cs.takeWhile Char.isDigit
  match cs.dropWhile Char.isDigit with
  | '.' :: r2 =>
    let fs := r2.takeWhile Char.isDigit
    if ds.isEmpty && fs.isEmpty then none
    else some ((digitsVal ds : ℚ) + (digitsVal fs : ℚ) / 10 ^ fs.length)
  | _ => if ds.isEmpty then none else some ((digitsVal ds : ℚ))

/-- Models JavaScript parseFloat on the cleaned amount string: an
optional sign followed by a decimal literal prefix, trailing characters
ignored, and the exact literal value correctly rounded to a double; none
models NaN.  Exponent forms and leading whitespace are not modelled
(they cannot occur in the strings formatCurrency produces). -/
def parseFloatQ (cs : List Char) : Option ℚ :=
  match cs with
  | [] => none
  | ch :: rest =>
    if ch = '-' then (parseUnsignedQ rest).map (fun q => -fl q)
    else if ch = '+' then (parseUnsignedQ rest).map fl
    else (parseUnsignedQ (ch :: rest)).map fl

/-- Embeds parseCurrencyToCents from src/frontend/src/utils/currency.ts:
the parsed double is multiplied by 100 (one more double rounding) and
fed to Math.round.  A none input models a non-string argument; the empty
string is the falsy string rejected by the guard in the source. -/
def parseCurrencyToCents : Option String → Int
  | none => 0
  | some s =>
    if s = "" then 0
    else
      match parseFloatQ (stripCurrencyChars s.data) with
      | none => 0
      | some q => jsRound (fl (q * 100))

lemma qexp_bracket {x : ℚ} (hx : 0 < x) :
    (2:ℚ) ^ qexp x ≤ x ∧ x < 2 ^ (qexp x + 1) := by
  have hnum : (0:ℤ) < x.num := Rat.num_pos.mpr hx
  have hn0 : x.num.toNat ≠ 0 := by omega
  have hd0 : x.den ≠ 0 := x.den_nz
  have hna : (2:ℕ) ^ Nat.log 2 x.num.toNat ≤ x.num.toNat := Nat.pow_log_le_self 2 hn0
  have hnb : x.num.toNat < 2 ^ (Nat.log 2 x.num.toNat + 1) :=
    Nat.lt_pow_succ_log_self (by norm_num) _
  have hda : (2:ℕ) ^ Nat.log 2 x.den ≤ x.den := Nat.pow_log_le_self 2 hd0
  have hdb : x.den < 2 ^ (Nat.log 2 x.den + 1) :=
    Nat.lt_pow_succ_log_self (by norm_num) _
  have hcast : ((x.num.toNat : ℕ) : ℚ) = (x.num : ℚ) := by
    exact_mod_cast congrArg (fun z : ℤ => (z : ℚ)) (Int.toNat_of_nonneg (le_of_lt hnum))
  have hxeq : x = (x.num.toNat : ℚ) / (x.den : ℚ) := by
    rw [hcast]
    exact (Rat.num_div_den x).symm
  have hdpos : (0:ℚ) < (x.den : ℚ) := by
    exact_mod_cast Nat.pos_of_ne_zero hd0
  have hqa1 : (2:ℚ) ^ Nat.log 2 x.num.toNat ≤ (x.num.toNat : ℚ) := by exact_mod_cast hna
  have hqa2 : (x.num.toNat : ℚ) < 2 ^ (Nat.log 2 x.num.toNat + 1) := by exact_mod_cast hnb
  have hqb1 : (2:ℚ) ^ Nat.log 2 x.den ≤ (x.den : ℚ) := by exact_mod_cast hda
  have hqb2 : (x.den : ℚ) < 2 ^ (Nat.log 2 x.den + 1) := by exact_mod_cast hdb
  set A : ℤ := (Nat.log 2 x.num.toNat : ℤ) with hA
  set B : ℤ := (Nat.log 2 x.den : ℤ) with hB
  have hz1 : (2:ℚ) ^ A = 2 ^ Nat.log 2 x.num.toNat := by
    rw [hA]
    exact zpow_natCast 2 _
  have hz2 : (2:ℚ) ^ (A + 1) = 2 ^ (Nat.log 2 x.num.toNat + 1) := by
    rw [hA, show ((Nat.log 2 x.num.toNat : ℤ) + 1)
        = ((Nat.log 2 x.num.toNat + 1 : ℕ) : ℤ) by push_cast; ring]
    exact zpow_natCast 2 _
  have hz3 : (2:ℚ) ^ B = 2 ^ Nat.log 2 x.den := by
    rw [hB]
    exact zpow_natCast 2 _
  have hz4 : (2:ℚ) ^ (B + 1) = 2 ^ (Nat.log 2 x.den + 1) := by
    rw [hB, show ((Nat.log 2 x.den : ℤ) + 1) = ((Nat.log 2 x.den + 1 : ℕ) : ℤ) by
      push_cast; ring]
    exact zpow_natCast 2 _
  have hupper : x < (2:ℚ) ^ (A + 1 - B) := by
    rw [hxeq, zpow_sub₀ (two_ne_zero) (A + 1) B, hz2, hz3,
      div_lt_div_iff₀ hdpos (pow_pos two_pos _)]
    calc (x.num.toNat : ℚ) * 2 ^ Nat.log 2 x.den
        < 2 ^ (Nat.log 2 x.num.toNat + 1) * 2 ^ Nat.log 2 x.den :=
          mul_lt_mul_of_pos_right hqa2 (pow_pos two_pos _)
      _ ≤ 2 ^ (Nat.log 2 x.num.toNat + 1) * (x.den : ℚ) :=
          mul_le_mul_of_nonneg_left hqb1 (le_of_lt (pow_pos two_pos _))
  have hlower : (2:ℚ) ^ (A - (B + 1)) < x := by
    rw [hxeq, zpow_sub₀ (two_ne_zero) A (B + 1), hz1, hz4,
      div_lt_div_iff₀ (pow_pos two_pos _) hdpos]
    calc (2:ℚ) ^ Nat.log 2 x.num.toNat * (x.den : ℚ)
        < 2 ^ Nat.log 2 x.num.toNat * 2 ^ (Nat.log 2 x.den + 1) :=
          mul_lt_mul_of_pos_left hqb2 (pow_pos two_pos _)
      _ ≤ (x.num.toNat : ℚ) * 2 ^ (Nat.log 2 x.den + 1) :=
          mul_le_mul_of_nonneg_right hqa1 (le_of_lt (pow_pos two_pos _))
  unfold qexp
  rw [← hA, ← hB]
  by_cases hcase : x < (2:ℚ) ^ (A - B)
  · rw [if_pos hcase]
    constructor
    · rw [show A - B - 1 = A - (B + 1) by ring]
      exact le_of_lt hlower
    · rw [show A - B - 1 + 1 = A - B by ring]
      exact hcase
  · rw [if_neg hcase]
    refine ⟨not_lt.mp hcase, ?_⟩
    rw [show A - B + 1 = A + 1 - B by ring]
    exact hupper

lemma qexp_unique {x : ℚ} (k : ℤ) (hx : 0 < x)
    (h1 : (2:ℚ) ^ k ≤ x) (h2 : x < 2 ^ (k + 1)) : qexp x = k := by
  obtain ⟨g1, g2⟩ := qexp_bracket hx
  by_contra hne
  rcases lt_or_gt_of_ne hne with hlt | hlt
  · have hle : qexp x + 1 ≤ k := by omega
    have := zpow_le_zpow_right₀ (by norm_num : (1:ℚ) ≤ 2) hle
    linarith
  · have hle : k + 1 ≤ qexp x := by omega
    have := zpow_le_zpow_right₀ (by norm_num : (1:ℚ) ≤ 2) hle
    linarith

lemma roundHalfEven_eq_floor {y : ℚ} (h : Int.fract y < 1 / 2) :
    roundHalfEven y = ⌊y⌋ := by
  unfold roundHalfEven
  rw [if_pos h]

lemma roundHalfEven_eq_floor_add_one {y : ℚ} (h : 1 / 2 < Int.fract y) :
    roundHalfEven y = ⌊y⌋ + 1 := by
  unfold roundHalfEven
  rw [if_neg (by linarith), if_pos h]

lemma roundHalfEven_ge_floor (y : ℚ) : ⌊y⌋ ≤ roundHalfEven y := by
  unfold roundHalfEven
  split_ifs <;> omega

lemma roundHalfEven_sub_abs (y : ℚ) : |(roundHalfEven y : ℚ) - y| ≤ 1 / 2 := by
  have hf0 : 0 ≤ Int.fract y := Int.fract_nonneg y
  have hf1 : Int.fract y < 1 := Int.fract_lt_one y
  have hfr : Int.fract y = y - ⌊y⌋ := rfl
  unfold roundHalfEven
  by_cases h1 : Int.fract y < 1 / 2
  · rw [if_pos h1, abs_le]
    constructor <;> [linarith [hfr ▸ h1]; linarith [hfr ▸ hf0]]
  · rw [if_neg h1]
    by_cases h2 : 1 / 2 < Int.fract y
    · rw [if_pos h2]
      rw [abs_le]
      push_cast
      constructor <;> [linarith [hfr ▸ hf1]; linarith [hfr ▸ h2]]
    · have heq : Int.fract y = 1 / 2 := le_antisymm (not_lt.mp h2) (not_lt.mp h1)
      rw [if_neg h2]
      by_cases h3 : ⌊y⌋ % 2 = 0
      · rw [if_pos h3, abs_le]
        constructor <;> [linarith [hfr ▸ heq.ge]; linarith [hfr ▸ heq.le]]
      · rw [if_neg h3, abs_le]
        push_cast
        constructor <;> [linarith [hfr ▸ heq.ge]; linarith [hfr ▸ heq.le]]

lemma flPos_nonneg (x : ℚ) : 0 ≤ flPos x := by
  unfold flPos
  by_cases h : x ≤ 0
  · rw [if_pos h]
  · rw [if_neg h]
    push_neg at h
    have he : (0:ℚ) < 2 ^ (qexp x - 52) := by positivity
    have hy : 0 < x / 2 ^ (qexp x - 52) := div_pos h he
    have hfl : (0:ℤ) ≤ ⌊x / 2 ^ (qexp x - 52)⌋ := Int.floor_nonneg.mpr (le_of_lt hy)
    have hge := roundHalfEven_ge_floor (x / 2 ^ (qexp x - 52))
    have : (0:ℚ) ≤ (roundHalfEven (x / 2 ^ (qexp x - 52)) : ℚ) := by
      exact_mod_cast le_trans hfl hge
    exact mul_nonneg this (le_of_lt he)

lemma fl_of_nonneg {x : ℚ} (h : 0 ≤ x) : fl x = flPos x := by
  unfold fl
  rw [if_neg (not_lt.mpr h)]

lemma fl_nonneg {x : ℚ} (h : 0 ≤ x) : 0 ≤ fl x := by
  rw [fl_of_nonneg h]
  exact flPos_nonneg x

lemma flPos_sub_abs {x : ℚ} (hx : 0 < x) :
    |flPos x - x| ≤ x / 2 ^ (53 : ℤ) := by
  unfold flPos
  rw [if_neg (not_le.mpr hx)]
  have h2 : (0:ℚ) < 2 ^ (qexp x - 52) := by positivity
  have hxe : x / 2 ^ (qexp x - 52) * 2 ^ (qexp x - 52) = x :=
    div_mul_cancel₀ x (ne_of_gt h2)
  have key : (roundHalfEven (x / 2 ^ (qexp x - 52)) : ℚ) * 2 ^ (qexp x - 52) - x
      = ((roundHalfEven (x / 2 ^ (qexp x - 52)) : ℚ) - x / 2 ^ (qexp x - 52))
          * 2 ^ (qexp x - 52) := by
    rw [sub_mul, hxe]
  rw [key, abs_mul, abs_of_pos h2]
  have h3 := roundHalfEven_sub_abs (x / 2 ^ (qexp x - 52))
  have h4 : |(roundHalfEven (x / 2 ^ (qexp x - 52)) : ℚ) - x / 2 ^ (qexp x - 52)|
      * 2 ^ (qexp x - 52) ≤ 1 / 2 * 2 ^ (qexp x - 52) :=
    mul_le_mul_of_nonneg_right h3 (le_of_lt h2)
  refine le_trans h4 ?_
  have hhalf : (1:ℚ) / 2 * 2 ^ (qexp x - 52) = 2 ^ (qexp x - 53) := by
    rw [show qexp x - 53 = qexp x - 52 - 1 by ring,
      zpow_sub₀ (two_ne_zero) (qexp x - 52) 1, zpow_one]
    ring
  have hsplit : (2:ℚ) ^ (qexp x - 53) = 2 ^ qexp x / 2 ^ (53 : ℤ) :=
    zpow_sub₀ (two_ne_zero) (qexp x) 53
  rw [hhalf, hsplit]
  have hb := (qexp_bracket hx).1
  have hpos : (0:ℚ) ≤ 2 ^ (53 : ℤ) := by positivity
  exact div_le_div_of_nonneg_right hb hpos

lemma jsRound_eq_of {x : ℚ} {m : ℤ} (h1 : (m : ℚ) - 1 / 2 ≤ x)
    (h2 : x < (m : ℚ) + 1 / 2) : jsRound x = m := by
  unfold jsRound
  rw [Int.floor_eq_iff]
  constructor
  · linarith
  · linarith

lemma jsRound_intCast (z : Int) : jsRound (z : ℚ) = z := by
  unfold jsRound
  rw [add_comm, Int.floor_add_int]
  norm_num

lemma jsRound_fl_div (c : Nat) (hc : c < 2 ^ 52) :
    jsRound (100 * fl ((c : ℚ) / 100)) = c := by
  rcases Nat.eq_zero_or_pos c with rfl | hpos
  · have h0 : fl (((0:ℕ) : ℚ) / 100) = 0 := by
      rw [fl_of_nonneg (by norm_num)]
      unfold flPos
      rw [if_pos (by norm_num)]
    rw [h0]
    apply jsRound_eq_of <;> push_cast <;> norm_num
  · have hxpos : (0:ℚ) < (c : ℚ) / 100 := by positivity
    rw [fl_of_nonneg (le_of_lt hxpos)]
    have herr := flPos_sub_abs hxpos
    have hB : ((2:ℚ) ^ (53:ℤ)) = 9007199254740992 := by norm_num
    have hcQ : (c : ℚ) ≤ 4503599627370495 := by
      exact_mod_cast (by omega : c ≤ 4503599627370495)
    rw [hB] at herr
    have habs := abs_le.mp herr
    apply jsRound_eq_of
    · push_cast
      linarith [habs.1, habs.2]
    · push_cast
      linarith [habs.1, habs.2]

lemma jsRound_fl_mul (c : Nat) (hc : c < 2 ^ 51) :
    jsRound (fl (fl ((c : ℚ) / 100) * 100)) = c := by
  rcases Nat.eq_zero_or_pos c with rfl | hpos
  · have h0 : fl (((0:ℕ) : ℚ) / 100) = 0 := by
      rw [fl_of_nonneg (by norm_num)]
      unfold flPos
      rw [if_pos (by norm_num)]
    rw [h0]
    have h1 : fl ((0:ℚ) * 100) = 0 := by
      rw [show (0:ℚ) * 100 = 0 by ring, fl_of_nonneg (le_refl 0)]
      unfold flPos
      rw [if_pos (le_refl 0)]
    rw [h1]
    apply jsRound_eq_of <;> push_cast <;> norm_num
  · have hxpos : (0:ℚ) < (c : ℚ) / 100 := by positivity
    have hB : ((2:ℚ) ^ (53:ℤ)) = 9007199254740992 := by norm_num
    have hcQ : (c : ℚ) ≤ 2251799813685247 := by
      exact_mod_cast (by omega : c ≤ 2251799813685247)
    have hc1 : (1:ℚ) ≤ (c : ℚ) := by exact_mod_cast hpos
    have herr := flPos_sub_abs hxpos
    rw [hB] at herr
    have habs := abs_le.mp herr
    rw [fl_of_nonneg (le_of_lt hxpos)]
    set d : ℚ := flPos ((c : ℚ) / 100) with hd
    have hzpos : (0:ℚ) < d * 100 := by linarith [habs.1, hc1]
    have herr2 := flPos_sub_abs hzpos
    rw [hB] at herr2
    have habs2 := abs_le.mp herr2
    rw [fl_of_nonneg (le_of_lt hzpos)]
    apply jsRound_eq_of
    · push_cast
      linarith [habs.1, habs.2, habs2.1, habs2.2, hcQ, hc1]
    · push_cast
      linarith [habs.1, habs.2, habs2.1, habs2.2, hcQ, hc1]

lemma toFixed2_fl_eq (c : Nat) (hc : c < 2 ^ 52) :
    toFixed2 (fl ((c : ℚ) / 100)) = natFixed2 c := by
  have hnn : 0 ≤ fl ((c : ℚ) / 100) := fl_nonneg (by positivity)
  unfold toFixed2
  rw [if_neg (not_lt.mpr hnn), jsRound_fl_div c hc]
  norm_num

lemma takeWhile_append_of_all {p : Char → Bool} {l : List Char} {b : Char}
    {r : List Char} (hl : ∀ c ∈ l, p c = true) (hb : p b = false) :
    (l ++ b :: r).takeWhile p = l := by
  induction l with
  | nil => simp [List.takeWhile_cons, hb]
  | cons x xs ih =>
    have hx : p x = true := hl x (by simp)
    simp only [List.cons_append, List.takeWhile_cons, hx, if_true]
    rw [ih (fun c hc => hl c (by simp [hc]))]

lemma dropWhile_append_of_all {p : Char → Bool} {l : List Char} {b : Char}
    {r : List Char} (hl : ∀ c ∈ l, p c = true) (hb : p b = false) :
    (l ++ b :: r).dropWhile p = b :: r := by
  induction l with
  | nil => simp [List.dropWhile_cons, hb]
  | cons x xs ih =>
    have hx : p x = true := hl x (by simp)
    simp only [List.cons_append, List.dropWhile_cons, hx, if_true]
    exact ih (fun c hc => hl c (by simp [hc]))

lemma takeWhile_all {p : Char → Bool} {l : List Char}
    (hl : ∀ c ∈ l, p c = true) : l.takeWhile p = l := by
  induction l with
  | nil => rfl
  | cons x xs ih =>
    have hx : p x = true := hl x (by simp)
    simp only [List.takeWhile_cons, hx, if_true]
    rw [ih (fun c hc => hl c (by simp [hc]))]

lemma stripCurrencyChars_of_digits_dot {l : List Char}
    (hl : ∀ c ∈ l, c.isDigit = true ∨ c = '.') :
    stripCurrencyChars l = l := by
  unfold stripCurrencyChars
  rw [List.filter_eq_self]
  intro c hc
  rcases hl c hc with h | rfl
  · have h1 : c ≠ '$' := by intro hh; rw [hh] at h; simp [Char.isDigit] at h
    have h2 : c ≠ ',' := by intro hh; rw [hh] at h; simp [Char.isDigit] at h
    simp [h1, h2]
  · decide

lemma strip_dollar_natFixed2 (k : Nat) :
    stripCurrencyChars ('$' :: natFixed2 k) = natFixed2 k := by
  unfold stripCurrencyChars
  rw [List.filter_cons]
  have hdol : (('$' : Char) == '$' || ('$' : Char) == ',') = true := by decide
  simp only [hdol, Bool.not_true, if_false]
  refine stripCurrencyChars_of_digits_dot ?_
  intro ch hch
  unfold natFixed2 at hch
  rcases List.mem_append.mp hch with h | h
  · exact Or.inl (natDigits_all_digits _ ch h)
  · simp only [List.mem_cons, List.not_mem_nil, or_false] at h
    rcases h with rfl | rfl | rfl
    · exact Or.inr rfl
    · exact Or.inl (digitChar_isDigit _ (by omega))
    · exact Or.inl (digitChar_isDigit _ (by omega))

lemma parseUnsignedQ_natFixed2 (c : Nat) :
    parseUnsignedQ (natFixed2 c) = some ((c : ℚ) / 100) := by
  unfold parseUnsignedQ natFixed2
  have hds : ∀ ch ∈ natDigits (c / 100), ch.isDigit = true :=
    natDigits_all_digits (c / 100)
  have hdot : ('.' : Char).isDigit = false := by decide
  rw [takeWhile_append_of_all hds hdot, dropWhile_append_of_all hds hdot]
  simp only []
  have h1 : (Nat.digitChar (c % 100 / 10)).isDigit = true :=
    digitChar_isDigit _ (by omega)
  have h2 : (Nat.digitChar (c % 100 % 10)).isDigit = true :=
    digitChar_isDigit _ (by omega)
  have hfs : ([Nat.digitChar (c % 100 / 10), Nat.digitChar (c % 100 % 10)].takeWhile
      Char.isDigit) = [Nat.digitChar (c % 100 / 10), Nat.digitChar (c % 100 % 10)] := by
    apply takeWhile_all
    intro ch hch
    simp only [List.mem_cons, List.not_mem_nil, or_false] at hch
    rcases hch with rfl | rfl
    · exact h1
    · exact h2
  rw [hfs]
  have hne : (natDigits (c / 100)).isEmpty = false := by
    rcases h : natDigits (c / 100) with _ | ⟨x, xs⟩
    · exact absurd h (natDigits_ne_nil _)
    · rfl
  simp only [hne, Bool.false_and, if_false, List.length_cons, List.length_nil]
  have hfrac : digitsVal [Nat.digitChar (c % 100 / 10), Nat.digitChar (c % 100 % 10)]
      = c % 100 := by
    have : [Nat.digitChar (c % 100 / 10), Nat.digitChar (c % 100 % 10)]
        = [Nat.digitChar (c % 100 / 10)] ++ [Nat.digitChar (c % 100 % 10)] := rfl
    rw [this, digitsVal_append_singleton]
    have hv1 : digitsVal [Nat.digitChar (c % 100 / 10)] = c % 100 / 10 := by
      simp [digitsVal, digitVal_digitChar _ (by omega : c % 100 / 10 < 10)]
    rw [hv1, digitVal_digitChar _ (by omega : c % 100 % 10 < 10)]
    omega
  rw [digitsVal_natDigits, hfrac]
  have key : (c : ℚ) = ((c / 100 : Nat) : ℚ) * 100 + ((c % 100 : Nat) : ℚ) := by
    exact_mod_cast (by omega : c = c / 100 * 100 + c % 100)
  have h102 : (10 : ℚ) ^ 2 = 100 := by norm_num
  rw [h102, key]
  field_simp

lemma parseFloatQ_natFixed2 (c : Nat) :
    parseFloatQ (natFixed2 c) = some (fl ((c : ℚ) / 100)) := by
  have hmap : (parseUnsignedQ (natFixed2 c)).map fl = some (fl ((c : ℚ) / 100)) := by
    rw [parseUnsignedQ_natFixed2]
    rfl
  have hh := natDigits_ne_nil (c / 100)
  rcases hhead : natDigits (c / 100) with _ | ⟨x, xs⟩
  · exact absurd hhead hh
  · have hxd : x.isDigit = true := by
      have := natDigits_all_digits (c / 100) x (by rw [hhead]; simp)
      exact this
    have hx1 : x ≠ '-' := by intro h; rw [h] at hxd; simp [Char.isDigit] at hxd
    have hx2 : x ≠ '+' := by intro h; rw [h] at hxd; simp [Char.isDigit] at hxd
    have hshape : natFixed2 c = x :: (xs ++ '.' ::
        [Nat.digitChar (c % 100 / 10), Nat.digitChar (c % 100 % 10)]) := by
      unfold natFixed2
      rw [hhead]
      simp
    rw [hshape]
    show (if x = '-' then
        (parseUnsignedQ (xs ++ '.' ::
          [Nat.digitChar (c % 100 / 10), Nat.digitChar (c % 100 % 10)])).map (fun q => -fl q)
      else if x = '+' then
        (parseUnsignedQ (xs ++ '.' ::
          [Nat.digitChar (c % 100 / 10), Nat.digitChar (c % 100 % 10)])).map fl
      else (parseUnsignedQ (x :: (xs ++ '.' ::
          [Nat.digitChar (c % 100 / 10), Nat.digitChar (c % 100 % 10)]))).map fl)
      = some (fl ((c : ℚ) / 100))
    rw [if_neg hx1, if_neg hx2, ← hshape]
    exact hmap

/-- Claim C10, amended: the double rounding of cents / 100 keeps the
printed hundredth exact only while the accumulated rounding error stays
below half a cent, which holds for cents values below 2 ^ 51 (at larger
values such as 8000000000000024 the printed hundredth already shifts); in
that range the utilities round-trip, and the total fallbacks are as
before: NaN and non-number inputs format as the zero amount, and empty,
non-string or non-numeric inputs parse to 0. -/
theorem currency_roundtrip_c10_amended (c : Nat) (hc : c < 2 ^ 51) (s : String)
    (hs : parseFloatQ (stripCurrencyChars s.data) = none) :
    parseCurrencyToCents (some (formatCurrency (some (c : Int)))) = c
    ∧ formatCurrency none = "$0.00"
    ∧ parseCurrencyToCents none = 0
    ∧ parseCurrencyToCents (some "") = 0
    ∧ parseCurrencyToCents (some s) = 0 := by
  refine ⟨?_, rfl, rfl, rfl, ?_⟩
  · have hc52 : c < 2 ^ 52 := lt_trans hc (by norm_num)
    have hcast : (((c : Int)) : ℚ) = (c : ℚ) := by push_cast; ring
    have hdata : (formatCurrency (some (c : Int))).data = '$' :: natFixed2 c := by
      show '$' :: toFixed2 (fl (((c : Int) : ℚ) / 100)) = '$' :: natFixed2 c
      rw [hcast, toFixed2_fl_eq c hc52]
    have hne : formatCurrency (some (c : Int)) ≠ "" := by
      intro h
      have := congrArg String.data h
      rw [hdata] at this
      simp [String.data] at this
    unfold parseCurrencyToCents
    simp only [hne, if_false, hdata]
    rw [strip_dollar_natFixed2, parseFloatQ_natFixed2]
    show jsRound (fl (fl ((c : ℚ) / 100) * 100)) = ((c : Nat) : Int)
    exact jsRound_fl_mul c hc
  · unfold parseCurrencyToCents
    by_cases hse : s = ""
    · simp [hse]
    · simp only [hse, if_false, hs]

/-- Concrete run of the amended C10 theorem at cents value 1234. -/
theorem currency_roundtrip_c10_amended_witness :
    parseCurrencyToCents (some (formatCurrency (some ((1234 : Nat) : Int)))) = 1234
    ∧ formatCurrency none = "$0.00"
    ∧ parseCurrencyToCents none = 0
    ∧ parseCurrencyToCents (some "") = 0
    ∧ parseCurrencyToCents (some "abc") = 0 :=
  currency_roundtrip_c10_amended 1234 (by decide) "abc" (by decide)

/-- Claim C10 as stated is false on the double-rounded code: at cents
value 8000000000000024 (below 2 ^ 53, inside the exactly-representable
double range) the division by 100 rounds to 80000000000000.234375,
toFixed(2) prints the hundredth 23, and parsing the printed string
returns 8000000000000023 rather than the original value. -/
theorem currency_roundtrip_c10_counterexample :
    parseCurrencyToCents (some (formatCurrency (some (8000000000000024 : Int))))
      = 8000000000000023
    ∧ (8000000000000023 : Int) ≠ (8000000000000024 : Int) := by
  constructor
  · have hq1 : qexp ((8000000000000024 : ℚ) / 100) = 46 :=
      qexp_unique 46 (by norm_num) (by norm_num) (by norm_num)
    have hfloor1 : ⌊(8000000000000024 : ℚ) / 100 / 2 ^ (-6 : ℤ)⌋ = 5120000000000015 := by
      rw [Int.floor_eq_iff]
      constructor <;> norm_num
    have hfract1 : Int.fract ((8000000000000024 : ℚ) / 100 / 2 ^ (-6 : ℤ)) < 1 / 2 := by
      unfold Int.fract
      rw [hfloor1]
      norm_num
    have hfl1 : fl ((8000000000000024 : ℚ) / 100)
        = 5120000000000015 * 2 ^ (-6 : ℤ) := by
      rw [fl_of_nonneg (by norm_num)]
      unfold flPos
      rw [if_neg (by norm_num), hq1, show ((46 : ℤ) - 52) = -6 by norm_num]
      rw [roundHalfEven_eq_floor hfract1, hfloor1]
      norm_num
    have hn : jsRound (100 * fl ((8000000000000024 : ℚ) / 100)) = 8000000000000023 := by
      rw [hfl1]
      apply jsRound_eq_of <;> norm_num
    have hdata : (formatCurrency (some (8000000000000024 : Int))).data
        = '$' :: natFixed2 8000000000000023 := by
      show '$' :: toFixed2 (fl (((8000000000000024 : Int) : ℚ) / 100))
          = '$' :: natFixed2 8000000000000023
      rw [show (((8000000000000024 : Int)) : ℚ) = (8000000000000024 : ℚ) by norm_num]
      unfold toFixed2
      rw [if_neg (not_lt.mpr (fl_nonneg (by norm_num))), hn]
      rfl
    have hne : formatCurrency (some (8000000000000024 : Int)) ≠ "" := by
      intro h
      have := congrArg String.data h
      rw [hdata] at this
      simp [String.data] at this
    have hq2 : qexp ((8000000000000023 : ℚ) / 100) = 46 :=
      qexp_unique 46 (by norm_num) (by norm_num) (by norm_num)
    have hfloor2 : ⌊(8000000000000023 : ℚ) / 100 / 2 ^ (-6 : ℤ)⌋ = 5120000000000014 := by
      rw [Int.floor_eq_iff]
      constructor <;> norm_num
    have hfract2 : 1 / 2 < Int.fract ((8000000000000023 : ℚ) / 100 / 2 ^ (-6 : ℤ)) := by
      unfold Int.fract
      rw [hfloor2]
      norm_num
    have hfl2 : fl ((8000000000000023 : ℚ) / 100)
        = 5120000000000015 * 2 ^ (-6 : ℤ) := by
      rw [fl_of_nonneg (by norm_num)]
      unfold flPos
      rw [if_neg (by norm_num), hq2, show ((46 : ℤ) - 52) = -6 by norm_num]
      rw [roundHalfEven_eq_floor_add_one hfract2, hfloor2]
      push_cast
      norm_num
    have hq3 : qexp ((5120000000000015 : ℚ) * 2 ^ (-6 : ℤ) * 100) = 52 :=
      qexp_unique 52 (by norm_num) (by norm_num) (by norm_num)
    have hfloor3 : ⌊(5120000000000015 : ℚ) * 2 ^ (-6 : ℤ) * 100 / 2 ^ (0 : ℤ)⌋
        = 8000000000000023 := by
      rw [Int.floor_eq_iff]
      constructor <;> norm_num
    have hfract3 : Int.fract ((5120000000000015 : ℚ) * 2 ^ (-6 : ℤ) * 100 / 2 ^ (0 : ℤ))
        < 1 / 2 := by
      unfold Int.fract
      rw [hfloor3]
      norm_num
    have hfl3 : fl ((5120000000000015 : ℚ) * 2 ^ (-6 : ℤ) * 100)
        = 8000000000000023 := by
      rw [fl_of_nonneg (by norm_num)]
      unfold flPos
      rw [if_neg (by norm_num), hq3, show ((52 : ℤ) - 52) = 0 by norm_num]
      rw [roundHalfEven_eq_floor hfract3, hfloor3]
      norm_num
    unfold parseCurrencyToCents
    simp only [hne, if_false, hdata]
    rw [strip_dollar_natFixed2, parseFloatQ_natFixed2]
    show jsRound (fl (fl (((8000000000000023 : ℕ) : ℚ) / 100) * 100))
        = (8000000000000023 : Int)
    rw [show (((8000000000000023 : ℕ)) : ℚ) = (8000000000000023 : ℚ) by norm_num]
    rw [hfl2, hfl3]
    apply jsRound_eq_of <;> norm_num
  · decide

/-! ## Idempotency key generation

Embedding of the key template literal used by handleDeposit in the deposit
screens (DepositScreen in src/unnamed/part_006 and its web variant in
src/unnamed/part_008). -/

/-- Embeds the idempotency-key template literal of handleDeposit:
deposit underscore accountId underscore Date.now() underscore Math.random().
nowMs is the integer millisecond clock value; randStr is the decimal string
rendering of the Math.random() result. -/
def mkIdempotencyKey (accountId nowMs : Nat) (randStr : String) : String :=
  "deposit_" ++ natToString accountId ++ "_" ++ natToString nowMs ++ "_" ++ randStr

lemma append_cons_sep_inj (sep : Char) :
    ∀ {a a' b b' : List Char}, sep ∉ a → sep ∉ a' →
      a ++ sep :: b = a' ++ sep :: b' → a = a' ∧ b = b' := by
  intro a
  induction a with
  | nil =>
    intro a' b b' _ ha' h
    cases a' with
    | nil => simpa using h
    | cons x t =>
      simp only [List.nil_append, List.cons_append, List.cons.injEq] at h
      exact absurd (h.1 ▸ List.mem_cons_self x t) ha'
  | cons x t ih =>
    intro a' b b' ha ha' h
    cases a' with
    | nil =>
      simp only [List.cons_append, List.nil_append, List.cons.injEq] at h
      exact absurd (h.1 ▸ List.mem_cons_self x t) (h.1 ▸ ha)
    | cons y t' =>
      simp only [List.cons_append, List.cons.injEq] at h
      obtain ⟨rfl, h2⟩ := h
      have := ih (fun hm => ha (List.mem_cons_of_mem _ hm))
        (fun hm => ha' (List.mem_cons_of_mem _ hm)) h2
      exact ⟨by rw [this.1], this.2⟩

/-- Claim C9: the deposit client generates a fresh idempotency key on every
submission attempt: two handleDeposit invocations with the same account id
but a different clock value or a different random component always produce
different keys, so a user-initiated retry never reuses an earlier key. -/
theorem idempotency_key_fresh_c9 (accountId nowMs nowMs' : Nat)
    (randStr randStr' : String)
    (hne : nowMs ≠ nowMs' ∨ randStr ≠ randStr') :
    mkIdempotencyKey accountId nowMs randStr ≠ mkIdempotencyKey accountId nowMs' randStr' := by
  intro h
  have hd := congrArg String.data h
  simp only [mkIdempotencyKey, String.data_append, natToString,
    List.append_assoc, List.singleton_append] at hd
  have hd2 := List.append_cancel_left hd
  have hd3 := List.append_cancel_left hd2
  have hd4 : natDigits nowMs ++ '_' :: randStr.data
      = natDigits nowMs' ++ '_' :: randStr'.data := by
    have := congrArg List.tail hd3
    simpa using this
  have hsplit := append_cons_sep_inj '_' (natDigits_no_underscore nowMs)
    (natDigits_no_underscore nowMs') hd4
  rcases hne with hne | hne
  · exact hne (natDigits_injective hsplit.1)
  · exact hne (String.ext hsplit.2)

/-- Concrete run of the C9 theorem: two submissions one millisecond apart
with the same random component produce different keys. -/
theorem idempotency_key_fresh_c9_witness :
    mkIdempotencyKey 7 1000 "0.5" ≠ mkIdempotencyKey 7 1001 "0.5" :=
  idempotency_key_fresh_c9 7 1000 1001 "0.5" "0.5" (Or.inl (by decide))

/-! ## Ledger data model

The persisted-state layout of spec section 6 and the frontend Transaction
and Account types in src/frontend/src/types/index.ts. -/

/-- A committed ledger transaction row: monotonically increasing id, owning
account, signed amount in minor units, kind tag, caller-supplied idempotency
key.  Mirrors the transactions table layout and the frontend Transaction
type. -/
structure Txn where
  id : Nat
  accountId : Nat
  amountCents : Int
  txnType : String
  idempotencyKey : String
deriving DecidableEq, Repr

/-- An account row: id, kind, integer minor-unit balance.  Mirrors the
accounts table layout and the frontend Account type. -/
structure Account where
  id : Nat
  accountType : String
  balanceCents : Int
deriving DecidableEq, Repr

/-- Ledger Store state: the account rows, the transaction rows newest first,
and the next transaction id to assign.  Storing transactions newest first
realises the strictly descending id order the Transaction Reader serves. -/
structure Ledger where
  accounts : List Account
  txns : List Txn
  nextId : Nat
deriving DecidableEq, Repr

inductive DepositError where
  | invalidAmount
  | accountNotFound
deriving DecidableEq, Repr

/-- Deposit response shape: new balance plus the transaction record, as in
the frontend BalanceUpdate type. -/
structure BalanceUpdate where
  newBalanceCents : Int
  txn : Txn
deriving DecidableEq, Repr

/-- Minimum deposit in cents; the configured lower bound enforced by the
deposit screens (one dollar). -/
def minDepositCents : Int := 100

/-- Maximum deposit ceiling in cents; the configured upper bound enforced by
the deposit screens (ten thousand dollars). -/
def maxDepositCents : Int := 1000000

def findAccount (st : Ledger) (aid : Nat) : Option Account :=
  st.accounts.find? (fun a => a.id == aid)

/-- Account rows after setting the balance of account aid. -/
def setBalance (st : Ledger) (aid : Nat) (bal : Int) : List Account :=
  st.accounts.map (fun a => if a.id == aid then ⟨a.id, a.accountType, bal⟩ else a)

/-- The committed transaction carrying the given idempotency key for the
given account, if any: the Idempotency Guard lookup. -/
def findByKey (st : Ledger) (aid : Nat) (key : String) : Option Txn :=
  st.txns.find? (fun t => t.accountId == aid && t.idempotencyKey == key)

/-- Modelled from the spec: the Deposit Processor (spec section 4.1).  The
backend deposit endpoint is not under src; only its caller (the frontend API
client) and a documentation snippet in INSTRUCTION_DOC.md are.  Following
the spec algorithm: resolve the account, validate the amount against the
configured bounds, consult the idempotency-key uniqueness invariant and
return the prior transaction with the current balance on a replay, otherwise
insert one transaction row and update the balance as one atomic unit.  The
returned state is the post-commit state; on an error the input state is
returned unchanged, modelling rollback of the atomic unit. -/
def deposit (st : Ledger) (aid : Nat) (amount : Int) (key : String) :
    Ledger × Except DepositError BalanceUpdate :=
  match findAccount st aid with
  | none => (st, Except.error DepositError.accountNotFound)
  | some acct =>
    if amount < minDepositCents || amount > maxDepositCents then
      (st, Except.error DepositError.invalidAmount)
    else
      match findByKey st aid key with
      | some t => (st, Except.ok ⟨acct.balanceCents, t⟩)
      | none =>
        let t : Txn := ⟨st.nextId, aid, amount, "deposit", key⟩
        (⟨setBalance st aid (acct.balanceCents + amount), t :: st.txns, st.nextId + 1⟩,
          Except.ok ⟨acct.balanceCents + amount, t⟩)

/-- Embeds the validation chain of handleDeposit in the deposit screen
(src/unnamed/part_006): amountCents is Math.round(parseFloat(amount) * 100),
with none modelling NaN; the function returns the alert message shown, or
none when validation passes and the API call proceeds. -/
def handleDepositValidation : Option Int → Option String
  | none => some "Please enter a valid amount"
  | some a =>
    if a ≤ 0 then some "Please enter a valid amount"
    else if a < 100 then some "Minimum deposit amount is $1.00"
    else if a > 1000000 then some "Maximum deposit amount is $10,000.00"
    else none

lemma findAccount_mem {st : Ledger} {aid : Nat} {acct : Account}
    (h : findAccount st aid = some acct) : acct ∈ st.accounts ∧ acct.id = aid := by
  refine ⟨List.mem_of_find?_eq_some h, ?_⟩
  have := List.find?_some h
  simpa using this


lemma find?_map_setBalance {l : List Account} {aid : Nat} {acct : Account}
    (bal : Int) (h : l.find? (fun a => a.id == aid) = some acct) :
    (l.map (fun a => if a.id == aid then (⟨a.id, a.accountType, bal⟩ : Account) else a)).find?
      (fun a => a.id == aid) = some ⟨acct.id, acct.accountType, bal⟩ := by
  induction l with
  | nil => simp at h
  | cons x xs ih =>
    by_cases hx : (x.id == aid) = true
    · rw [List.find?_cons_of_pos (p := fun a : Account => a.id == aid) (a := x) xs hx] at h
      cases h
      simp only [List.map_cons]
      rw [if_pos hx]
      exact List.find?_cons_of_pos (p := fun a : Account => a.id == aid) _ hx
    · rw [List.find?_cons_of_neg (p := fun a : Account => a.id == aid) (a := x) xs hx] at h
      simp only [List.map_cons]
      rw [if_neg hx, List.find?_cons_of_neg (p := fun a : Account => a.id == aid) (a := x) _ hx]
      exact ih h

lemma findAccount_after_deposit {st : Ledger} {aid : Nat} {acct : Account}
    (bal : Int) (txs : List Txn) (nid : Nat)
    (h : findAccount st aid = some acct) :
    findAccount ⟨setBalance st aid bal, txs, nid⟩ aid
      = some ⟨acct.id, acct.accountType, bal⟩ :=
  find?_map_setBalance bal h

lemma amountOk_iff {amount : Int} :
    (amount < minDepositCents || amount > maxDepositCents) = false
      ↔ minDepositCents ≤ amount ∧ amount ≤ maxDepositCents := by
  simp only [Bool.or_eq_false_iff, decide_eq_false_iff_not, not_lt]

lemma deposit_notFound {st : Ledger} {aid : Nat} {amount : Int} {key : String}
    (hf : findAccount st aid = none) :
    deposit st aid amount key = (st, Except.error DepositError.accountNotFound) := by
  simp [deposit, hf]

lemma deposit_invalid {st : Ledger} {aid : Nat} {amount : Int} {key : String}
    {acct : Account} (hf : findAccount st aid = some acct)
    (hv : (amount < minDepositCents || amount > maxDepositCents) = true) :
    deposit st aid amount key = (st, Except.error DepositError.invalidAmount) := by
  simp [deposit, hf, hv]

lemma deposit_replay {st : Ledger} {aid : Nat} {amount : Int} {key : String}
    {acct : Account} {t : Txn} (hf : findAccount st aid = some acct)
    (hv : (amount < minDepositCents || amount > maxDepositCents) = false)
    (hk : findByKey st aid key = some t) :
    deposit st aid amount key = (st, Except.ok ⟨acct.balanceCents, t⟩) := by
  simp [deposit, hf, hv, hk]

lemma deposit_fresh {st : Ledger} {aid : Nat} {amount : Int} {key : String}
    {acct : Account} (hf : findAccount st aid = some acct)
    (hv : (amount < minDepositCents || amount > maxDepositCents) = false)
    (hk : findByKey st aid key = none) :
    deposit st aid amount key =
      (⟨setBalance st aid (acct.balanceCents + amount),
        (⟨st.nextId, aid, amount, "deposit", key⟩ : Txn) :: st.txns, st.nextId + 1⟩,
        Except.ok ⟨acct.balanceCents + amount, ⟨st.nextId, aid, amount, "deposit", key⟩⟩) := by
  simp [deposit, hf, hv, hk]

/-- Claim C1: after a first successful deposit, replaying the identical
request returns the identical BalanceUpdate and leaves the ledger state
literally unchanged, so no second transaction row is created and the balance
is not mutated again; iterating this, every further replay also returns the
first result. -/
theorem deposit_idempotent_c1 (st st₁ : Ledger) (aid : Nat) (amount : Int)
    (key : String) (r : BalanceUpdate)
    (h : deposit st aid amount key = (st₁, Except.ok r)) :
    deposit st₁ aid amount key = (st₁, Except.ok r) := by
  rcases hf : findAccount st aid with _ | acct
  · rw [deposit_notFound hf] at h
    simp at h
  · rcases hv : (amount < minDepositCents || amount > maxDepositCents) with _ | _
    · rcases hk : findByKey st aid key with _ | t
      · rw [deposit_fresh hf hv hk] at h
        obtain ⟨hst, hr⟩ := Prod.mk.injEq .. ▸ h
        have hr2 : r = ⟨acct.balanceCents + amount,
            ⟨st.nextId, aid, amount, "deposit", key⟩⟩ := by
          cases hr
          rfl
        subst hr2
        subst hst
        have hk1 : findByKey
            ⟨setBalance st aid (acct.balanceCents + amount),
              (⟨st.nextId, aid, amount, "deposit", key⟩ : Txn) :: st.txns, st.nextId + 1⟩
            aid key = some ⟨st.nextId, aid, amount, "deposit", key⟩ := by
          unfold findByKey
          exact List.find?_cons_of_pos _ (by simp)
        rw [deposit_replay (findAccount_after_deposit _ _ _ hf) hv hk1]
      · rw [deposit_replay hf hv hk] at h
        obtain ⟨hst, hr⟩ := Prod.mk.injEq .. ▸ h
        have hr2 : r = ⟨acct.balanceCents, t⟩ := by
          cases hr
          rfl
        subst hr2
        subst hst
        rw [deposit_replay hf hv hk]
    · rw [deposit_invalid hf hv] at h
      simp at h

/-- Concrete run of the C1 theorem: replaying a 500-cent deposit with key k1
on a one-account ledger returns the original result and state. -/
theorem deposit_idempotent_c1_witness :
    deposit
      ⟨[⟨1, "checking", 500⟩], [⟨1, 1, 500, "deposit", "k1"⟩], 2⟩ 1 500 "k1"
      = (⟨[⟨1, "checking", 500⟩], [⟨1, 1, 500, "deposit", "k1"⟩], 2⟩,
          Except.ok ⟨500, ⟨1, 1, 500, "deposit", "k1"⟩⟩) :=
  deposit_idempotent_c1 ⟨[⟨1, "checking", 0⟩], [], 1⟩ _ 1 500 "k1" _ rfl

/-- Claim C2: a successful first application (fresh idempotency key) inserts
exactly one transaction row, carrying the deposited amount, and increments
exactly the target account balance by that amount, all in the single
returned state; a failed deposit returns the input state unchanged, so
neither effect is committed on error. -/
theorem deposit_atomic_c2 (st : Ledger) (aid : Nat) (amount : Int) (key : String) :
    (∀ st' r, deposit st aid amount key = (st', Except.ok r) →
      findByKey st aid key = none →
      st'.txns = r.txn :: st.txns
      ∧ r.txn.accountId = aid ∧ r.txn.amountCents = amount
      ∧ ∃ acct, findAccount st aid = some acct
          ∧ r.newBalanceCents = acct.balanceCents + amount
          ∧ findAccount st' aid = some ⟨acct.id, acct.accountType, acct.balanceCents + amount⟩
          ∧ st'.accounts = setBalance st aid (acct.balanceCents + amount))
    ∧ (∀ st' e, deposit st aid amount key = (st', Except.error e) → st' = st) := by
  constructor
  · intro st' r h hfresh
    rcases hf : findAccount st aid with _ | acct
    · rw [deposit_notFound hf] at h
      simp at h
    · rcases hv : (amount < minDepositCents || amount > maxDepositCents) with _ | _
      · rw [deposit_fresh hf hv hfresh] at h
        obtain ⟨hst, hr⟩ := Prod.mk.injEq .. ▸ h
        have hr2 : r = ⟨acct.balanceCents + amount,
            ⟨st.nextId, aid, amount, "deposit", key⟩⟩ := by
          cases hr
          rfl
        subst hr2
        subst hst
        exact ⟨rfl, rfl, rfl, acct, rfl, rfl, findAccount_after_deposit _ _ _ hf, rfl⟩
      · rw [deposit_invalid hf hv] at h
        simp at h
  · intro st' e h
    rcases hf : findAccount st aid with _ | acct
    · rw [deposit_notFound hf] at h
      obtain ⟨hst, _⟩ := Prod.mk.injEq .. ▸ h
      exact hst.symm
    · rcases hv : (amount < minDepositCents || amount > maxDepositCents) with _ | _
      · rcases hk : findByKey st aid key with _ | t
        · rw [deposit_fresh hf hv hk] at h
          simp at h
        · rw [deposit_replay hf hv hk] at h
          simp at h
      · rw [deposit_invalid hf hv] at h
        obtain ⟨hst, _⟩ := Prod.mk.injEq .. ▸ h
        exact hst.symm

/-- Concrete run of the C2 theorem: a fresh 250-cent deposit appends one row
and moves the balance from 500 to 750; an out-of-bounds deposit errors with
the state unchanged. -/
theorem deposit_atomic_c2_witness :
    ((deposit ⟨[⟨1, "checking", 500⟩], [⟨1, 1, 500, "deposit", "k1"⟩], 2⟩ 1 250 "k2").1.txns
      = (⟨2, 1, 250, "deposit", "k2"⟩ : Txn) :: [⟨1, 1, 500, "deposit", "k1"⟩])
    ∧ (deposit ⟨[⟨1, "checking", 500⟩], [⟨1, 1, 500, "deposit", "k1"⟩], 2⟩ 1 0 "k3").1
      = ⟨[⟨1, "checking", 500⟩], [⟨1, 1, 500, "deposit", "k1"⟩], 2⟩ := by
  constructor
  · exact ((deposit_atomic_c2 ⟨[⟨1, "checking", 500⟩], [⟨1, 1, 500, "deposit", "k1"⟩], 2⟩
      1 250 "k2").1 _ _ rfl rfl).1
  · exact (deposit_atomic_c2 ⟨[⟨1, "checking", 500⟩], [⟨1, 1, 500, "deposit", "k1"⟩], 2⟩
      1 0 "k3").2 _ DepositError.invalidAmount rfl

/-- Claim C4: the frontend validation accepts an integer amount exactly when
it lies within the configured bounds of 100 and 1000000 cents; the deposit
operation rejects with InvalidAmount exactly when the amount is outside
those bounds; a rejected deposit leaves the ledger unchanged; and a deposit
of the maximum allowed amount succeeds. -/
theorem deposit_bounds_c4 (st : Ledger) (aid : Nat) (acct : Account)
    (amount : Int) (key : String)
    (hacct : findAccount st aid = some acct) :
    (handleDepositValidation (some amount) = none
      ↔ minDepositCents ≤ amount ∧ amount ≤ maxDepositCents)
    ∧ ((deposit st aid amount key).2 = Except.error DepositError.invalidAmount
      ↔ ¬(minDepositCents ≤ amount ∧ amount ≤ maxDepositCents))
    ∧ (¬(minDepositCents ≤ amount ∧ amount ≤ maxDepositCents) →
        (deposit st aid amount key).1 = st)
    ∧ (∃ r, (deposit st aid maxDepositCents key).2 = Except.ok r) := by
  refine ⟨?_, ?_, ?_, ?_⟩
  · show (if amount ≤ 0 then some "Please enter a valid amount"
      else if amount < 100 then some "Minimum deposit amount is $1.00"
      else if amount > 1000000 then some "Maximum deposit amount is $10,000.00"
      else none) = none ↔ minDepositCents ≤ amount ∧ amount ≤ maxDepositCents
    unfold minDepositCents maxDepositCents
    by_cases h1 : amount ≤ 0
    · rw [if_pos h1]
      constructor
      · intro h
        cases h
      · intro h
        omega
    · rw [if_neg h1]
      by_cases h2 : amount < 100
      · rw [if_pos h2]
        constructor
        · intro h
          cases h
        · intro h
          omega
      · rw [if_neg h2]
        by_cases h3 : amount > 1000000
        · rw [if_pos h3]
          constructor
          · intro h
            cases h
          · intro h
            omega
        · rw [if_neg h3]
          constructor
          · intro _
            omega
          · intro _
            rfl
  · rcases hv : (amount < minDepositCents || amount > maxDepositCents) with _ | _
    · have hin := amountOk_iff.mp hv
      rcases hk : findByKey st aid key with _ | t
      · rw [deposit_fresh hacct hv hk]
        simp only []
        constructor
        · intro h
          cases h
        · intro h
          exact absurd hin h
      · rw [deposit_replay hacct hv hk]
        simp only []
        constructor
        · intro h
          cases h
        · intro h
          exact absurd hin h
    · rw [deposit_invalid hacct hv]
      have hout : ¬(minDepositCents ≤ amount ∧ amount ≤ maxDepositCents) := by
        intro hin
        rw [amountOk_iff.mpr hin] at hv
        cases hv
      simp only []
      exact ⟨fun _ => hout, fun _ => trivial⟩
  · intro hout
    have hv : (amount < minDepositCents || amount > maxDepositCents) = true := by
      rcases hb : (amount < minDepositCents || amount > maxDepositCents) with _ | _
      · exact absurd (amountOk_iff.mp hb) hout
      · rfl
    rw [deposit_invalid hacct hv]
  · have hv : (maxDepositCents < minDepositCents || maxDepositCents > maxDepositCents)
        = false := by decide
    rcases hk : findByKey st aid key with _ | t
    · rw [deposit_fresh hacct hv hk]
      exact ⟨_, rfl⟩
    · rw [deposit_replay hacct hv hk]
      exact ⟨_, rfl⟩

/-- Concrete run of the C4 theorem at amount 50 (rejected, below the
configured minimum) on a one-account ledger, with the maximum deposit
succeeding. -/
theorem deposit_bounds_c4_witness :
    (handleDepositValidation (some 50) = none
      ↔ minDepositCents ≤ (50 : Int) ∧ (50 : Int) ≤ maxDepositCents)
    ∧ ((deposit ⟨[⟨1, "checking", 0⟩], [], 1⟩ 1 50 "k").2
        = Except.error DepositError.invalidAmount
      ↔ ¬(minDepositCents ≤ (50 : Int) ∧ (50 : Int) ≤ maxDepositCents))
    ∧ (¬(minDepositCents ≤ (50 : Int) ∧ (50 : Int) ≤ maxDepositCents) →
        (deposit ⟨[⟨1, "checking", 0⟩], [], 1⟩ 1 50 "k").1
          = ⟨[⟨1, "checking", 0⟩], [], 1⟩)
    ∧ (∃ r, (deposit ⟨[⟨1, "checking", 0⟩], [], 1⟩ 1 maxDepositCents "k").2
        = Except.ok r) :=
  deposit_bounds_c4 ⟨[⟨1, "checking", 0⟩], [], 1⟩ 1 ⟨1, "checking", 0⟩ 50 "k" rfl

/-! ## Operation sequences and the balance invariant -/

/-- Sum of committed transaction amounts for an account over a row list. -/
def txnSumL (txs : List Txn) (aid : Nat) : Int :=
  ((txs.filter (fun t => t.accountId == aid)).map Txn.amountCents).sum

/-- Sum of all committed transaction amounts for the account. -/
def txnSum (st : Ledger) (aid : Nat) : Int := txnSumL st.txns aid

/-- The ledger invariant of spec section 3: every account balance equals the
sum of its committed transaction amounts and is never negative. -/
def balanceInvariant (st : Ledger) : Prop :=
  ∀ a ∈ st.accounts, a.balanceCents = txnSum st a.id ∧ 0 ≤ a.balanceCents

/-- One deposit request: the only state-mutating ledger operation (spec
section 3, Ownership: accounts are mutated only by the Deposit Processor;
transaction reads are pure). -/
structure Op where
  aid : Nat
  amount : Int
  key : String
deriving DecidableEq, Repr

def applyOp (st : Ledger) (op : Op) : Ledger :=
  (deposit st op.aid op.amount op.key).1

def applyOps (st : Ledger) (ops : List Op) : Ledger :=
  ops.foldl applyOp st

/-- Fresh ledger: the given accounts, each starting at balance 0, with no
transactions, as created with the owning dependent profile. -/
def initLedger (accts : List (Nat × String)) : Ledger :=
  ⟨accts.map (fun p => ⟨p.1, p.2, 0⟩), [], 1⟩

lemma txnSumL_cons (t : Txn) (txs : List Txn) (aid : Nat) :
    txnSumL (t :: txs) aid
      = (if t.accountId == aid then t.amountCents else 0) + txnSumL txs aid := by
  unfold txnSumL
  rw [List.filter_cons]
  by_cases ht : (t.accountId == aid) = true
  · rw [if_pos ht, if_pos ht]
    simp
  · rw [if_neg ht, if_neg ht]
    simp

lemma applyOp_balanceInvariant (st : Ledger) (op : Op)
    (h : balanceInvariant st) : balanceInvariant (applyOp st op) := by
  unfold applyOp
  rcases hf : findAccount st op.aid with _ | acct
  · rw [deposit_notFound hf]
    exact h
  · rcases hv : (op.amount < minDepositCents || op.amount > maxDepositCents) with _ | _
    · rcases hk : findByKey st op.aid op.key with _ | t
      · rw [deposit_fresh hf hv hk]
        have hmem := findAccount_mem hf
        have hacct := h acct hmem.1
        have hamt : minDepositCents ≤ op.amount ∧ op.amount ≤ maxDepositCents :=
          amountOk_iff.mp hv
        intro a' ha'
        rcases List.mem_map.mp ha' with ⟨a, ha, rfl⟩
        have hInvA := h a ha
        by_cases hid : (a.id == op.aid) = true
        · rw [if_pos hid]
          have haid : a.id = op.aid := by simpa using hid
          have hsum : txnSum
              ⟨setBalance st op.aid (acct.balanceCents + op.amount),
                (⟨st.nextId, op.aid, op.amount, "deposit", op.key⟩ : Txn) :: st.txns,
                st.nextId + 1⟩ a.id
              = op.amount + txnSumL st.txns a.id := by
            unfold txnSum
            rw [txnSumL_cons]
            have : ((⟨st.nextId, op.aid, op.amount, "deposit", op.key⟩ : Txn).accountId
                == a.id) = true := by
              simp [haid]
            rw [if_pos this]
          constructor
          · show acct.balanceCents + op.amount = _
            rw [hsum]
            have h1 : acct.balanceCents = txnSumL st.txns acct.id := hacct.1
            have h2 : acct.id = op.aid := hmem.2
            rw [h1, h2, haid]
            omega
          · show 0 ≤ acct.balanceCents + op.amount
            have := hacct.2
            unfold minDepositCents at hamt
            omega
        · rw [if_neg hid]
          have hsum : txnSum
              ⟨setBalance st op.aid (acct.balanceCents + op.amount),
                (⟨st.nextId, op.aid, op.amount, "deposit", op.key⟩ : Txn) :: st.txns,
                st.nextId + 1⟩ a.id
              = txnSumL st.txns a.id := by
            unfold txnSum
            rw [txnSumL_cons]
            have : ((⟨st.nextId, op.aid, op.amount, "deposit", op.key⟩ : Txn).accountId
                == a.id) = false := by
              simp only [Bool.eq_false_iff]
              intro hh
              exact hid (by simpa using (by simpa using hh : op.aid = a.id).symm)
            rw [if_neg (by simp [this])]
            simp
          exact ⟨by rw [hsum]; exact hInvA.1, hInvA.2⟩
      · rw [deposit_replay hf hv hk]
        exact h
    · rw [deposit_invalid hf hv]
      exact h

lemma applyOps_balanceInvariant (ops : List Op) :
    ∀ st : Ledger, balanceInvariant st → balanceInvariant (applyOps st ops) := by
  induction ops with
  | nil => exact fun st h => h
  | cons op ops ih =>
    intro st h
    exact ih (applyOp st op) (applyOp_balanceInvariant st op h)

lemma initLedger_balanceInvariant (accts : List (Nat × String)) :
    balanceInvariant (initLedger accts) := by
  intro a ha
  rcases List.mem_map.mp ha with ⟨p, _, rfl⟩
  exact ⟨rfl, le_refl 0⟩

/-- Claim C3: every ledger state reachable from a fresh set of zero-balance
accounts by a sequence of completed operations satisfies the invariant that
each account balance equals the sum of its committed transaction amounts and
is never negative; moreover every single operation preserves the
invariant. -/
theorem balance_invariant_c3 :
    (∀ (accts : List (Nat × String)) (ops : List Op),
      balanceInvariant (applyOps (initLedger accts) ops))
    ∧ (∀ (st : Ledger) (op : Op),
      balanceInvariant st → balanceInvariant (applyOp st op)) :=
  ⟨fun accts ops =>
      applyOps_balanceInvariant ops (initLedger accts) (initLedger_balanceInvariant accts),
    applyOp_balanceInvariant⟩

/-- Concrete run of the C3 theorem: a replayed deposit and a second account
deposit from a fresh two-account ledger keep the invariant, and a single
step from an explicitly given invariant-satisfying state keeps it. -/
theorem balance_invariant_c3_witness :
    balanceInvariant (applyOps (initLedger [(1, "checking"), (2, "savings")])
      [⟨1, 500, "k1"⟩, ⟨1, 500, "k1"⟩, ⟨2, 250, "k2"⟩])
    ∧ balanceInvariant (applyOp
        ⟨[⟨1, "checking", 500⟩], [⟨7, 1, 500, "deposit", "k1"⟩], 8⟩ ⟨1, 250, "k2"⟩) :=
  ⟨balance_invariant_c3.1 [(1, "checking"), (2, "savings")]
      [⟨1, 500, "k1"⟩, ⟨1, 500, "k1"⟩, ⟨2, 250, "k2"⟩],
    balance_invariant_c3.2 ⟨[⟨1, "checking", 500⟩], [⟨7, 1, 500, "deposit", "k1"⟩], 8⟩
      ⟨1, 250, "k2"⟩ (by unfold balanceInvariant; decide)⟩

/-- Number of committed transaction rows for the account. -/
def accountTxnCount (st : Ledger) (aid : Nat) : Nat :=
  (st.txns.filter (fun t => t.accountId == aid)).length

/-- Claim C5: N deposits with pairwise-distinct fresh idempotency keys and
valid amounts, serialized in any order (the isolation level required by the
spec makes every concurrent interleaving equivalent to some serialization,
and the request list here is universally quantified over all orders), drive
the account balance from its prior value to prior plus the sum of all the
amounts, and add exactly N transaction rows for the account. -/
theorem concurrent_deposits_c5 :
    ∀ (reqs : List (Int × String)) (st : Ledger) (aid : Nat) (acct : Account),
      findAccount st aid = some acct →
      (∀ p ∈ reqs, minDepositCents ≤ p.1 ∧ p.1 ≤ maxDepositCents) →
      (∀ p ∈ reqs, findByKey st aid p.2 = none) →
      (reqs.map Prod.snd).Nodup →
      ∃ acct', findAccount (applyOps st (reqs.map (fun p => ⟨aid, p.1, p.2⟩))) aid
          = some acct'
        ∧ acct'.balanceCents = acct.balanceCents + (reqs.map Prod.fst).sum
        ∧ accountTxnCount (applyOps st (reqs.map (fun p => ⟨aid, p.1, p.2⟩))) aid
            = accountTxnCount st aid + reqs.length := by
  intro reqs
  induction reqs with
  | nil =>
    intro st aid acct hf _ _ _
    exact ⟨acct, hf, by simp, by simp [applyOps]⟩
  | cons p rest ih =>
    intro st aid acct hf hamts hfresh hnodup
    have hv : (p.1 < minDepositCents || p.1 > maxDepositCents) = false :=
      amountOk_iff.mpr (hamts p (by simp))
    have hk : findByKey st aid p.2 = none := hfresh p (by simp)
    have hdep := deposit_fresh hf hv hk
    have happ : applyOp st ⟨aid, p.1, p.2⟩
        = ⟨setBalance st aid (acct.balanceCents + p.1),
            (⟨st.nextId, aid, p.1, "deposit", p.2⟩ : Txn) :: st.txns, st.nextId + 1⟩ := by
      unfold applyOp
      rw [hdep]
    have hf1 : findAccount (applyOp st ⟨aid, p.1, p.2⟩) aid
        = some ⟨acct.id, acct.accountType, acct.balanceCents + p.1⟩ := by
      rw [happ]
      exact findAccount_after_deposit _ _ _ hf
    have hfresh1 : ∀ q ∈ rest, findByKey (applyOp st ⟨aid, p.1, p.2⟩) aid q.2 = none := by
      intro q hq
      rw [happ]
      unfold findByKey
      have hneq : p.2 ≠ q.2 := by
        intro he
        have : q.2 ∈ rest.map Prod.snd := List.mem_map.mpr ⟨q, hq, rfl⟩
        rw [← he] at this
        exact (List.nodup_cons.mp hnodup).1 this
      have hpred : ((⟨st.nextId, aid, p.1, "deposit", p.2⟩ : Txn).accountId == aid
          && (⟨st.nextId, aid, p.1, "deposit", p.2⟩ : Txn).idempotencyKey == q.2)
          = false := by
        simp only [Bool.and_eq_false_iff]
        right
        simp only [beq_eq_false_iff_ne, ne_eq]
        exact hneq
      rw [List.find?_cons_of_neg _ (by rw [hpred]; exact Bool.false_ne_true)]
      exact hfresh q (by simp [hq])
    have hcount1 : accountTxnCount (applyOp st ⟨aid, p.1, p.2⟩) aid
        = accountTxnCount st aid + 1 := by
      rw [happ]
      unfold accountTxnCount
      rw [List.filter_cons]
      have : ((⟨st.nextId, aid, p.1, "deposit", p.2⟩ : Txn).accountId == aid) = true := by
        simp
      rw [if_pos this]
      simp [Nat.add_comm]
    obtain ⟨acct', hfa, hbal, hcnt⟩ := ih (applyOp st ⟨aid, p.1, p.2⟩) aid
      ⟨acct.id, acct.accountType, acct.balanceCents + p.1⟩ hf1
      (fun q hq => hamts q (by simp [hq])) hfresh1 (List.nodup_cons.mp hnodup).2
    refine ⟨acct', ?_, ?_, ?_⟩
    · simpa using hfa
    · rw [hbal]
      simp only [List.map_cons, List.sum_cons]
      show acct.balanceCents + p.1 + (rest.map Prod.fst).sum
        = acct.balanceCents + (p.1 + (rest.map Prod.fst).sum)
      omega
    · show accountTxnCount
          (applyOps (applyOp st ⟨aid, p.1, p.2⟩)
            (rest.map (fun p => (⟨aid, p.1, p.2⟩ : Op)))) aid
        = accountTxnCount st aid + (rest.length + 1)
      rw [hcnt, hcount1]
      omega

/-- Concrete run of the C5 theorem: three deposits of 100, 200 and 300 cents
with distinct keys on a fresh zero-balance account end at balance 600 with
exactly three transaction rows. -/
theorem concurrent_deposits_c5_witness :
    ∃ acct', findAccount (applyOps ⟨[⟨1, "checking", 0⟩], [], 1⟩
        ([(100, "a"), (200, "b"), (300, "c")].map
          (fun p => (⟨1, p.1, p.2⟩ : Op)))) 1 = some acct'
      ∧ acct'.balanceCents = (0 : Int) + ([(100, "a"), (200, "b"), (300, "c")].map
          (Prod.fst (α := Int) (β := String))).sum
      ∧ accountTxnCount (applyOps ⟨[⟨1, "checking", 0⟩], [], 1⟩
          ([(100, "a"), (200, "b"), (300, "c")].map
            (fun p => (⟨1, p.1, p.2⟩ : Op)))) 1
          = accountTxnCount ⟨[⟨1, "checking", 0⟩], [], 1⟩ 1 + 3 := by
  have h := concurrent_deposits_c5 [(100, "a"), (200, "b"), (300, "c")]
    ⟨[⟨1, "checking", 0⟩], [], 1⟩ 1 ⟨1, "checking", 0⟩ rfl
    (by decide) (by decide) (by decide)
  simpa using h

/-! ## Transaction Reader

Modelled from the spec: the backend transaction-history endpoint (spec
section 4.3) is not under src; only its caller, the getTransactions method
of the frontend API client (src/unnamed/part_010), is.  The cursor is the
opaque encoding of the last id seen, realised as its decimal string. -/

/-- Default page size of the history endpoint (spec section 6). -/
def defaultLimit : Nat := 20

/-- Sane maximum page size the limit is clamped to (spec section 6). -/
def maxPageLimit : Nat := 100

/-- Modelled from the spec: non-positive limits fall back to the documented
default, larger limits are clamped to the maximum. -/
def clampLimit (limit : Int) : Nat :=
  if limit ≤ 0 then defaultLimit else min limit.toNat maxPageLimit

/-- All committed transactions of the account, newest (highest id) first. -/
def accountTxns (st : Ledger) (aid : Nat) : List Txn :=
  st.txns.filter (fun t => t.accountId == aid)

/-- Opaque cursor encoding of the last id seen. -/
def encodeCursor (v : Nat) : String := natToString v

/-- Cursor decoding: the decimal value when the string is a nonempty digit
string, none otherwise. -/
def decodeCursorRaw (s : String) : Option Nat :=
  if !s.data.isEmpty && s.data.all Char.isDigit then some (digitsVal s.data) else none

inductive ListError where
  | invalidCursor
  | accountNotFound
deriving DecidableEq, Repr

/-- The nextCursor of a page: present exactly when more candidate rows exist
than the page holds, and then encoding the last id of the page. -/
def nextCursorFor (candidates : List Txn) (l : Nat) (page : List Txn) : Option String :=
  if l < candidates.length then page.getLast?.map (fun t => encodeCursor t.id) else none

/-- Modelled from the spec: the Transaction Reader (spec section 4.3).
Resolves the account, clamps the limit, decodes the cursor (a non-numeric
cursor or one referencing no existing transaction id of the account yields
InvalidCursor), serves the next clamped-limit transactions with id strictly
below the decoded cursor in strictly descending id order, and returns a
nextCursor exactly when more rows remain. -/
def listTransactions (st : Ledger) (aid : Nat) (limit : Int) (cursor : Option String) :
    Except ListError (List Txn × Option String) :=
  match findAccount st aid with
  | none => Except.error ListError.accountNotFound
  | some _ =>
    match cursor with
    | none =>
      Except.ok ((accountTxns st aid).take (clampLimit limit),
        nextCursorFor (accountTxns st aid) (clampLimit limit)
          ((accountTxns st aid).take (clampLimit limit)))
    | some c =>
      match decodeCursorRaw c with
      | none => Except.error ListError.invalidCursor
      | some v =>
        if (accountTxns st aid).all (fun t => !(t.id == v)) then
          Except.error ListError.invalidCursor
        else
          Except.ok (((accountTxns st aid).filter (fun t => decide (t.id < v))).take
              (clampLimit limit),
            nextCursorFor ((accountTxns st aid).filter (fun t => decide (t.id < v)))
              (clampLimit limit)
              (((accountTxns st aid).filter (fun t => decide (t.id < v))).take
                (clampLimit limit)))

/-- Transaction rows are stored strictly descending by id. -/
def txnsSorted (st : Ledger) : Prop :=
  List.Pairwise (fun a b : Txn => b.id < a.id) st.txns

/-- Every committed transaction id is below the next id to assign. -/
def idsBounded (st : Ledger) : Prop := ∀ t ∈ st.txns, t.id < st.nextId

lemma listT_notFound {st : Ledger} {aid : Nat} {limit : Int} {cursor : Option String}
    (hf : findAccount st aid = none) :
    listTransactions st aid limit cursor = Except.error ListError.accountNotFound := by
  simp [listTransactions, hf]

lemma listT_nocursor {st : Ledger} {aid : Nat} {limit : Int} {acct : Account}
    (hf : findAccount st aid = some acct) :
    listTransactions st aid limit none
      = Except.ok ((accountTxns st aid).take (clampLimit limit),
          nextCursorFor (accountTxns st aid) (clampLimit limit)
            ((accountTxns st aid).take (clampLimit limit))) := by
  simp [listTransactions, hf]

lemma listT_badCursor {st : Ledger} {aid : Nat} {limit : Int} {acct : Account}
    {c : String} (hf : findAccount st aid = some acct)
    (hc : decodeCursorRaw c = none) :
    listTransactions st aid limit (some c) = Except.error ListError.invalidCursor := by
  simp [listTransactions, hf, hc]

lemma listT_staleCursor {st : Ledger} {aid : Nat} {limit : Int} {acct : Account}
    {c : String} {v : Nat} (hf : findAccount st aid = some acct)
    (hc : decodeCursorRaw c = some v)
    (hm : (accountTxns st aid).all (fun t => !(t.id == v)) = true) :
    listTransactions st aid limit (some c) = Except.error ListError.invalidCursor := by
  simp [listTransactions, hf, hc, hm]

lemma listT_cursor {st : Ledger} {aid : Nat} {limit : Int} {acct : Account}
    {c : String} {v : Nat} (hf : findAccount st aid = some acct)
    (hc : decodeCursorRaw c = some v)
    (hm : (accountTxns st aid).all (fun t => !(t.id == v)) = false) :
    listTransactions st aid limit (some c)
      = Except.ok (((accountTxns st aid).filter (fun t => decide (t.id < v))).take
            (clampLimit limit),
          nextCursorFor ((accountTxns st aid).filter (fun t => decide (t.id < v)))
            (clampLimit limit)
            (((accountTxns st aid).filter (fun t => decide (t.id < v))).take
              (clampLimit limit))) := by
  simp [listTransactions, hf, hc, hm]

lemma clampLimit_pos (limit : Int) : 1 ≤ clampLimit limit := by
  unfold clampLimit defaultLimit maxPageLimit
  by_cases h : limit ≤ 0
  · rw [if_pos h]
    omega
  · rw [if_neg h]
    have : 1 ≤ limit.toNat := by omega
    omega

lemma clampLimit_le_max (limit : Int) : clampLimit limit ≤ maxPageLimit := by
  unfold clampLimit defaultLimit maxPageLimit
  by_cases h : limit ≤ 0
  · rw [if_pos h]
    omega
  · rw [if_neg h]
    omega

lemma accountTxns_sorted {st : Ledger} (hs : txnsSorted st) (aid : Nat) :
    List.Pairwise (fun a b : Txn => b.id < a.id) (accountTxns st aid) :=
  List.Pairwise.filter _ hs

lemma take_pairwise {l : List Txn} (h : List.Pairwise (fun a b : Txn => b.id < a.id) l)
    (n : Nat) : List.Pairwise (fun a b : Txn => b.id < a.id) (l.take n) :=
  List.Pairwise.sublist (List.take_sublist n l) h

lemma nextCursorFor_isSome {cand : List Txn} {l : Nat} (hl : 1 ≤ l) :
    (nextCursorFor cand l (cand.take l)).isSome = true ↔ l < cand.length := by
  unfold nextCursorFor
  by_cases h : l < cand.length
  · rw [if_pos h]
    simp only [Option.isSome_map']
    constructor
    · intro _
      exact h
    · intro _
      rw [List.getLast?_isSome]
      intro hnil
      have := congrArg List.length hnil
      rw [List.length_take] at this
      simp only [List.length_nil] at this
      omega
  · rw [if_neg h]
    simp only [Option.isSome_none, Bool.false_eq_true, false_iff]
    exact h

/-- Claim C6: pages are always strictly descending by transaction id; with a
valid cursor the page is exactly the next clamped-limit transactions of the
account with id strictly below the decoded cursor value; and nextCursor is
present exactly when more candidate rows exist beyond the returned page. -/
theorem list_transactions_c6 (st : Ledger) (aid : Nat) (limit : Int)
    (hsorted : txnsSorted st) :
    (∀ page next, listTransactions st aid limit none = Except.ok (page, next) →
      List.Pairwise (fun a b : Txn => b.id < a.id) page
      ∧ (next.isSome = true ↔ clampLimit limit < (accountTxns st aid).length))
    ∧ (∀ c v page next, decodeCursorRaw c = some v →
        listTransactions st aid limit (some c) = Except.ok (page, next) →
        page = ((accountTxns st aid).filter (fun t => decide (t.id < v))).take
            (clampLimit limit)
        ∧ List.Pairwise (fun a b : Txn => b.id < a.id) page
        ∧ (∀ t ∈ page, t.id < v)
        ∧ (next.isSome = true ↔ clampLimit limit
            < ((accountTxns st aid).filter (fun t => decide (t.id < v))).length)) := by
  constructor
  · intro page next h
    rcases hf : findAccount st aid with _ | acct
    · rw [listT_notFound hf] at h
      cases h
    · rw [listT_nocursor hf] at h
      have hpair := Except.ok.inj h
      obtain ⟨hpage, hnext⟩ := Prod.mk.injEq .. ▸ hpair
      subst hpage
      subst hnext
      exact ⟨take_pairwise (accountTxns_sorted hsorted aid) _,
        nextCursorFor_isSome (clampLimit_pos limit)⟩
  · intro c v page next hc h
    rcases hf : findAccount st aid with _ | acct
    · rw [listT_notFound hf] at h
      cases h
    · rcases hm : (accountTxns st aid).all (fun t => !(t.id == v)) with _ | _
      · rw [listT_cursor hf hc hm] at h
        have hpair := Except.ok.inj h
        obtain ⟨hpage, hnext⟩ := Prod.mk.injEq .. ▸ hpair
        subst hpage
        subst hnext
        refine ⟨rfl, take_pairwise ((accountTxns_sorted hsorted aid).filter _) _, ?_, ?_⟩
        · intro t ht
          have hmem := (List.take_sublist _ _).subset ht
          have := (List.mem_filter.mp hmem).2
          simpa using this
        · exact nextCursorFor_isSome (clampLimit_pos limit)
      · rw [listT_staleCursor hf hc hm] at h
        cases h

/-- Concrete run of the C6 theorem on a two-transaction ledger with a cursor
pointing at the newer transaction. -/
theorem list_transactions_c6_witness :
    (∀ page next,
      listTransactions ⟨[⟨1, "checking", 750⟩],
        [⟨2, 1, 250, "deposit", "k2"⟩, ⟨1, 1, 500, "deposit", "k1"⟩], 3⟩ 1 1 none
        = Except.ok (page, next) →
      List.Pairwise (fun a b : Txn => b.id < a.id) page
      ∧ (next.isSome = true ↔ clampLimit 1 < (accountTxns ⟨[⟨1, "checking", 750⟩],
          [⟨2, 1, 250, "deposit", "k2"⟩, ⟨1, 1, 500, "deposit", "k1"⟩], 3⟩ 1).length))
    ∧ (∀ c v page next, decodeCursorRaw c = some v →
        listTransactions ⟨[⟨1, "checking", 750⟩],
          [⟨2, 1, 250, "deposit", "k2"⟩, ⟨1, 1, 500, "deposit", "k1"⟩], 3⟩ 1 1 (some c)
          = Except.ok (page, next) →
        page = ((accountTxns ⟨[⟨1, "checking", 750⟩],
            [⟨2, 1, 250, "deposit", "k2"⟩, ⟨1, 1, 500, "deposit", "k1"⟩], 3⟩ 1).filter
              (fun t => decide (t.id < v))).take (clampLimit 1)
        ∧ List.Pairwise (fun a b : Txn => b.id < a.id) page
        ∧ (∀ t ∈ page, t.id < v)
        ∧ (next.isSome = true ↔ clampLimit 1
            < ((accountTxns ⟨[⟨1, "checking", 750⟩],
                [⟨2, 1, 250, "deposit", "k2"⟩, ⟨1, 1, 500, "deposit", "k1"⟩], 3⟩ 1).filter
                  (fun t => decide (t.id < v))).length)) :=
  list_transactions_c6 ⟨[⟨1, "checking", 750⟩],
    [⟨2, 1, 250, "deposit", "k2"⟩, ⟨1, 1, 500, "deposit", "k1"⟩], 3⟩ 1 1
    (by unfold txnsSorted; decide)

/-- Claim C8: the limit is clamped to the sane maximum of 100; a non-numeric
cursor, or a cursor referencing no existing transaction id of the account,
yields an InvalidCursor error rather than a crash; and an account with no
transactions yields the empty page with no nextCursor. -/
theorem list_transactions_c8 (st : Ledger) (aid : Nat) (limit : Int)
    (acct : Account) (c : String) (hf : findAccount st aid = some acct) :
    (clampLimit limit ≤ maxPageLimit)
    ∧ (∀ page next, listTransactions st aid limit none = Except.ok (page, next) →
        page.length ≤ maxPageLimit)
    ∧ ((∃ ch ∈ c.data, ch.isDigit = false) → decodeCursorRaw c = none)
    ∧ (decodeCursorRaw c = none →
        listTransactions st aid limit (some c) = Except.error ListError.invalidCursor)
    ∧ (∀ v, decodeCursorRaw c = some v → (∀ t ∈ accountTxns st aid, t.id ≠ v) →
        listTransactions st aid limit (some c) = Except.error ListError.invalidCursor)
    ∧ (accountTxns st aid = [] →
        listTransactions st aid limit none = Except.ok ([], none)) := by
  refine ⟨clampLimit_le_max limit, ?_, ?_, ?_, ?_, ?_⟩
  · intro page next h
    rw [listT_nocursor hf] at h
    have hpair := Except.ok.inj h
    obtain ⟨hpage, _⟩ := Prod.mk.injEq .. ▸ hpair
    subst hpage
    calc ((accountTxns st aid).take (clampLimit limit)).length
        ≤ clampLimit limit := by
          rw [List.length_take]
          omega
      _ ≤ maxPageLimit := clampLimit_le_max limit
  · rintro ⟨ch, hch, hnd⟩
    unfold decodeCursorRaw
    have hall : c.data.all Char.isDigit = false := by
      rcases hb : c.data.all Char.isDigit with _ | _
      · rfl
      · have := List.all_eq_true.mp hb ch hch
        rw [hnd] at this
        cases this
    rw [hall]
    simp
  · intro hc
    exact listT_badCursor hf hc
  · intro v hc hnone
    refine listT_staleCursor hf hc ?_
    rw [List.all_eq_true]
    intro t ht
    simp only [Bool.not_eq_eq_eq_not, Bool.not_true, beq_eq_false_iff_ne, ne_eq]
    exact hnone t ht
  · intro hempty
    rw [listT_nocursor hf, hempty]
    simp [nextCursorFor]

/-- Concrete run of the C8 theorem with the non-numeric cursor abc on a
one-account empty ledger. -/
theorem list_transactions_c8_witness :
    (clampLimit 500 ≤ maxPageLimit)
    ∧ (∀ page next, listTransactions ⟨[⟨1, "checking", 0⟩], [], 1⟩ 1 500 none
        = Except.ok (page, next) → page.length ≤ maxPageLimit)
    ∧ ((∃ ch ∈ ("abc" : String).data, ch.isDigit = false) →
        decodeCursorRaw "abc" = none)
    ∧ (decodeCursorRaw "abc" = none →
        listTransactions ⟨[⟨1, "checking", 0⟩], [], 1⟩ 1 500 (some "abc")
          = Except.error ListError.invalidCursor)
    ∧ (∀ v, decodeCursorRaw "abc" = some v →
        (∀ t ∈ accountTxns ⟨[⟨1, "checking", 0⟩], [], 1⟩ 1, t.id ≠ v) →
        listTransactions ⟨[⟨1, "checking", 0⟩], [], 1⟩ 1 500 (some "abc")
          = Except.error ListError.invalidCursor)
    ∧ (accountTxns ⟨[⟨1, "checking", 0⟩], [], 1⟩ 1 = [] →
        listTransactions ⟨[⟨1, "checking", 0⟩], [], 1⟩ 1 500 none
          = Except.ok ([], none)) :=
  list_transactions_c8 ⟨[⟨1, "checking", 0⟩], [], 1⟩ 1 500 ⟨1, "checking", 0⟩ "abc" rfl

/-! ## Cursor traversal stability -/

/-- Ids of a returned page. -/
def pageIds (page : List Txn) : List Nat := page.map Txn.id

/-- Modelled from the spec: a full cursor traversal of an account history.
Each round fetches one page, then an adversarial batch of deposit operations
(the next element of inserts) is committed before the next page is fetched
with the returned cursor.  Returns the concatenated page ids when the
traversal reaches a page without nextCursor; none on an error or when fuel
runs out. -/
def traverseHistory (fuel : Nat) (st : Ledger) (aid : Nat) (limit : Int)
    (cursor : Option String) (inserts : List (List Op)) : Option (List Nat) :=
  match fuel with
  | 0 => none
  | fuel + 1 =>
    match listTransactions st aid limit cursor with
    | Except.error _ => none
    | Except.ok (page, none) => some (pageIds page)
    | Except.ok (page, some c) =>
      (traverseHistory fuel (applyOps st (inserts.headD [])) aid limit (some c)
        inserts.tail).map (fun ids => pageIds page ++ ids)

/-- Upper bound a cursor value imposes on returned ids: none means the first
page (no bound). -/
def belowCursor : Option Nat → Nat → Prop
  | none, _ => True
  | some v, i => i < v

/-- Relation between a cursor string and its decoded value: the cursor must
decode and reference an existing transaction id of the account. -/
def cursorRel (st : Ledger) (aid : Nat) : Option String → Option Nat → Prop
  | none, none => True
  | some c, some v => decodeCursorRaw c = some v ∧ ∃ t ∈ accountTxns st aid, t.id = v
  | _, _ => False

lemma decodeCursorRaw_encodeCursor (v : Nat) :
    decodeCursorRaw (encodeCursor v) = some v := by
  have hd : (encodeCursor v).data = natDigits v := rfl
  unfold decodeCursorRaw
  rw [hd]
  have hne : (natDigits v).isEmpty = false := by
    rcases hdd : natDigits v with _ | ⟨x, xs⟩
    · exact absurd hdd (natDigits_ne_nil v)
    · rfl
  have hall : (natDigits v).all Char.isDigit = true :=
    List.all_eq_true.mpr (natDigits_all_digits v)
  rw [hne, hall]
  simp [digitsVal_natDigits]

lemma deposit_state_cases (st : Ledger) (aid : Nat) (amount : Int) (key : String) :
    (deposit st aid amount key).1 = st
    ∨ ∃ acct, findAccount st aid = some acct ∧ (deposit st aid amount key).1 =
        ⟨setBalance st aid (acct.balanceCents + amount),
          (⟨st.nextId, aid, amount, "deposit", key⟩ : Txn) :: st.txns, st.nextId + 1⟩ := by
  rcases hf : findAccount st aid with _ | acct
  · left
    rw [deposit_notFound hf]
  · rcases hv : (amount < minDepositCents || amount > maxDepositCents) with _ | _
    · rcases hk : findByKey st aid key with _ | t
      · right
        exact ⟨acct, rfl, by rw [deposit_fresh hf hv hk]⟩
      · left
        rw [deposit_replay hf hv hk]
    · left
      rw [deposit_invalid hf hv]

lemma applyOp_extends (st : Ledger) (op : Op) :
    ∃ pre, (applyOp st op).txns = pre ++ st.txns
      ∧ (∀ t ∈ pre, st.nextId ≤ t.id)
      ∧ st.nextId ≤ (applyOp st op).nextId := by
  unfold applyOp
  rcases deposit_state_cases st op.aid op.amount op.key with h | ⟨acct, hf, h⟩
  · exact ⟨[], by simp [h], by simp, by simp [h]⟩
  · refine ⟨[⟨st.nextId, op.aid, op.amount, "deposit", op.key⟩],
      by simp [h], ?_, by simp [h]⟩
    intro t ht
    rcases List.mem_singleton.mp ht with rfl
    exact le_refl _

lemma applyOps_extends (ops : List Op) :
    ∀ st : Ledger, ∃ pre, (applyOps st ops).txns = pre ++ st.txns
      ∧ (∀ t ∈ pre, st.nextId ≤ t.id)
      ∧ st.nextId ≤ (applyOps st ops).nextId := by
  induction ops with
  | nil => exact fun st => ⟨[], rfl, by simp, le_refl _⟩
  | cons op ops ih =>
    intro st
    obtain ⟨pre1, h1, hb1, hn1⟩ := applyOp_extends st op
    obtain ⟨pre2, h2, hb2, hn2⟩ := ih (applyOp st op)
    refine ⟨pre2 ++ pre1, ?_, ?_, le_trans hn1 hn2⟩
    · show (applyOps (applyOp st op) ops).txns = pre2 ++ pre1 ++ st.txns
      rw [h2, h1, List.append_assoc]
    · intro t ht
      rcases List.mem_append.mp ht with hm | hm
      · exact le_trans hn1 (hb2 t hm)
      · exact hb1 t hm

lemma applyOp_sorted_bounded (st : Ledger) (op : Op)
    (hs : txnsSorted st) (hb : idsBounded st) :
    txnsSorted (applyOp st op) ∧ idsBounded (applyOp st op) := by
  unfold applyOp
  rcases deposit_state_cases st op.aid op.amount op.key with h | ⟨acct, hf, h⟩
  · rw [h]
    exact ⟨hs, hb⟩
  · rw [h]
    constructor
    · show List.Pairwise (fun a b : Txn => b.id < a.id)
        ((⟨st.nextId, op.aid, op.amount, "deposit", op.key⟩ : Txn) :: st.txns)
      exact List.pairwise_cons.mpr ⟨fun b hbm => hb b hbm, hs⟩
    · intro t ht
      rcases List.mem_cons.mp ht with rfl | h2
      · show st.nextId < st.nextId + 1
        omega
      · have := hb t h2
        show t.id < st.nextId + 1
        omega

lemma applyOps_sorted_bounded (ops : List Op) :
    ∀ st : Ledger, txnsSorted st → idsBounded st →
      txnsSorted (applyOps st ops) ∧ idsBounded (applyOps st ops) := by
  induction ops with
  | nil => exact fun st hs hb => ⟨hs, hb⟩
  | cons op ops ih =>
    intro st hs hb
    obtain ⟨hs1, hb1⟩ := applyOp_sorted_bounded st op hs hb
    exact ih (applyOp st op) hs1 hb1

lemma accountTxns_applyOps_superset (st : Ledger) (ops : List Op) (aid : Nat) :
    ∀ t ∈ accountTxns st aid, t ∈ accountTxns (applyOps st ops) aid := by
  obtain ⟨pre, h, _, _⟩ := applyOps_extends ops st
  intro t ht
  unfold accountTxns at ht ⊢
  rw [h, List.filter_append]
  exact List.mem_append_right _ ht

lemma accountTxns_applyOps_old (st : Ledger) (ops : List Op) (aid : Nat)
    (t : Txn) (hmem : t ∈ accountTxns (applyOps st ops) aid)
    (hid : t.id < st.nextId) : t ∈ accountTxns st aid := by
  obtain ⟨pre, h, hbnd, _⟩ := applyOps_extends ops st
  unfold accountTxns at hmem ⊢
  rw [h, List.filter_append] at hmem
  rcases List.mem_append.mp hmem with h2 | h2
  · have := hbnd t (List.mem_of_mem_filter h2)
    omega
  · exact h2

lemma pairwise_getLast_le :
    ∀ {l : List Txn}, List.Pairwise (fun a b : Txn => b.id < a.id) l →
      ∀ {x : Txn}, l.getLast? = some x → ∀ a ∈ l, x.id ≤ a.id := by
  intro l
  induction l with
  | nil =>
    intro _ x hx
    cases hx
  | cons y ys ih =>
    intro h x hx a ha
    rcases ys with _ | ⟨z, zs⟩
    · have hxy : y = x := by simpa using hx
      subst hxy
      rcases List.mem_singleton.mp ha with rfl
      exact le_refl _
    · have hx2 : (z :: zs).getLast? = some x := by
        rwa [List.getLast?_cons_cons] at hx
      have hpc := List.pairwise_cons.mp h
      have hmemx : x ∈ z :: zs := List.mem_of_getLast?_eq_some hx2
      rcases List.mem_cons.mp ha with rfl | ha2
      · have := hpc.1 x hmemx
        omega
      · exact ih hpc.2 hx2 a ha2

lemma sorted_pageIds_nodup {l : List Txn}
    (h : List.Pairwise (fun a b : Txn => b.id < a.id) l) : (pageIds l).Nodup :=
  List.Pairwise.map Txn.id (fun _ _ hr => (Nat.ne_of_lt hr).symm) h

lemma take_drop_id_lt {l : List Txn}
    (h : List.Pairwise (fun a b : Txn => b.id < a.id) l) (n : Nat) :
    ∀ a ∈ l.take n, ∀ b ∈ l.drop n, b.id < a.id := by
  have heq := List.take_append_drop n l
  rw [← heq] at h
  exact (List.pairwise_append.mp h).2.2

lemma belowCursor_of_lt {cv : Option Nat} {i j : Nat}
    (h : belowCursor cv j) (hij : i < j) : belowCursor cv i := by
  cases cv with
  | none => trivial
  | some v =>
    show i < v
    have : j < v := h
    omega

lemma nextCursorFor_take_none {cand : List Txn} {l : Nat} (hl : 1 ≤ l)
    (h : nextCursorFor cand l (cand.take l) = none) : cand.length ≤ l := by
  by_contra hlen
  push_neg at hlen
  have : (nextCursorFor cand l (cand.take l)).isSome = true :=
    (nextCursorFor_isSome hl).mpr hlen
  rw [h] at this
  cases this

lemma nextCursorFor_take_some {cand : List Txn} {l : Nat} {c : String}
    (h : nextCursorFor cand l (cand.take l) = some c) :
    l < cand.length ∧ ∃ tl, (cand.take l).getLast? = some tl ∧ c = encodeCursor tl.id := by
  unfold nextCursorFor at h
  by_cases hlen : l < cand.length
  · rw [if_pos hlen] at h
    rcases hg : (cand.take l).getLast? with _ | tl
    · rw [hg] at h
      cases h
    · rw [hg] at h
      simp only [Option.map_some'] at h
      exact ⟨hlen, tl, rfl, (Option.some.inj h).symm⟩
  · rw [if_neg hlen] at h
    cases h

lemma traverseHistory_succ_error (fuel : Nat) (st : Ledger) (aid : Nat)
    (limit : Int) (cursor : Option String) (inserts : List (List Op))
    (e : ListError)
    (hlt : listTransactions st aid limit cursor = Except.error e) :
    traverseHistory (fuel + 1) st aid limit cursor inserts = none := by
  simp [traverseHistory, hlt]

lemma traverseHistory_succ_none (fuel : Nat) (st : Ledger) (aid : Nat)
    (limit : Int) (cursor : Option String) (inserts : List (List Op))
    (page : List Txn)
    (hlt : listTransactions st aid limit cursor = Except.ok (page, none)) :
    traverseHistory (fuel + 1) st aid limit cursor inserts = some (pageIds page) := by
  simp [traverseHistory, hlt]

lemma traverseHistory_succ_some (fuel : Nat) (st : Ledger) (aid : Nat)
    (limit : Int) (cursor : Option String) (inserts : List (List Op))
    (page : List Txn) (c : String)
    (hlt : listTransactions st aid limit cursor = Except.ok (page, some c)) :
    traverseHistory (fuel + 1) st aid limit cursor inserts
      = (traverseHistory fuel (applyOps st (inserts.headD [])) aid limit (some c)
          inserts.tail).map (fun ids => pageIds page ++ ids) := by
  simp [traverseHistory, hlt]

lemma traverse_ok_spec
    (fuel : Nat) (st : Ledger) (aid : Nat) (limit : Int) (cursor : Option String)
    (cv : Option Nat) (inserts : List (List Op)) (out : List Nat)
    (hb : idsBounded st)
    (cand : List Txn)
    (hcand_sorted : List.Pairwise (fun a b : Txn => b.id < a.id) cand)
    (hcand_mem : ∀ t, t ∈ cand ↔ t ∈ accountTxns st aid ∧ belowCursor cv t.id)
    (hlt : listTransactions st aid limit cursor
        = Except.ok (cand.take (clampLimit limit),
            nextCursorFor cand (clampLimit limit) (cand.take (clampLimit limit))))
    (IH : ∀ (st' : Ledger) (cursor' : Option String) (cv' : Option Nat)
        (inserts' : List (List Op)) (out' : List Nat),
        txnsSorted st' → idsBounded st' → cursorRel st' aid cursor' cv' →
        traverseHistory fuel st' aid limit cursor' inserts' = some out' →
        out'.Nodup
        ∧ (∀ i ∈ out', belowCursor cv' i ∧ ∃ t ∈ accountTxns st' aid, t.id = i)
        ∧ (∀ t ∈ accountTxns st' aid, belowCursor cv' t.id → t.id ∈ out'))
    (hst' : txnsSorted (applyOps st (inserts.headD []))
        ∧ idsBounded (applyOps st (inserts.headD [])))
    (h : traverseHistory (fuel + 1) st aid limit cursor inserts = some out) :
    out.Nodup
    ∧ (∀ i ∈ out, belowCursor cv i ∧ ∃ t ∈ accountTxns st aid, t.id = i)
    ∧ (∀ t ∈ accountTxns st aid, belowCursor cv t.id → t.id ∈ out) := by
  rcases hnc : nextCursorFor cand (clampLimit limit) (cand.take (clampLimit limit))
    with _ | c'
  · rw [hnc] at hlt
    rw [traverseHistory_succ_none fuel st aid limit cursor inserts _ hlt] at h
    have hout : out = pageIds (cand.take (clampLimit limit)) := (Option.some.inj h).symm
    subst hout
    have hlen : cand.length ≤ clampLimit limit :=
      nextCursorFor_take_none (clampLimit_pos limit) hnc
    rw [List.take_of_length_le hlen]
    refine ⟨sorted_pageIds_nodup hcand_sorted, ?_, ?_⟩
    · intro i hi
      obtain ⟨t, ht, rfl⟩ := List.mem_map.mp hi
      have hmem := (hcand_mem t).mp ht
      exact ⟨hmem.2, t, hmem.1, rfl⟩
    · intro t ht hbel
      exact List.mem_map.mpr ⟨t, (hcand_mem t).mpr ⟨ht, hbel⟩, rfl⟩
  · rw [hnc] at hlt
    rw [traverseHistory_succ_some fuel st aid limit cursor inserts _ c' hlt] at h
    rcases hrec : traverseHistory fuel (applyOps st (inserts.headD [])) aid limit
        (some c') inserts.tail with _ | out'
    · rw [hrec] at h
      cases h
    · rw [hrec] at h
      simp only [Option.map_some'] at h
      have hout : out = pageIds (cand.take (clampLimit limit)) ++ out' :=
        (Option.some.inj h).symm
      subst hout
      obtain ⟨hlen, tl, hgl, hc'⟩ := nextCursorFor_take_some hnc
      subst hc'
      have hpage_sorted := take_pairwise hcand_sorted (clampLimit limit)
      have htl_mem_page : tl ∈ cand.take (clampLimit limit) :=
        List.mem_of_getLast?_eq_some hgl
      have htl_mem_cand : tl ∈ cand := (List.take_sublist _ _).subset htl_mem_page
      have htl_min : ∀ a ∈ cand.take (clampLimit limit), tl.id ≤ a.id :=
        pairwise_getLast_le hpage_sorted hgl
      have htl_acct := (hcand_mem tl).mp htl_mem_cand
      have htl_next : tl.id < st.nextId := hb tl (List.mem_of_mem_filter htl_acct.1)
      have hsup := accountTxns_applyOps_superset st (inserts.headD []) aid
      have hcr' : cursorRel (applyOps st (inserts.headD [])) aid
          (some (encodeCursor tl.id)) (some tl.id) :=
        ⟨decodeCursorRaw_encodeCursor tl.id, tl, hsup tl htl_acct.1, rfl⟩
      obtain ⟨hnd', hsound', hcomp'⟩ := IH (applyOps st (inserts.headD []))
        (some (encodeCursor tl.id)) (some tl.id) inserts.tail out'
        hst'.1 hst'.2 hcr' hrec
      refine ⟨?_, ?_, ?_⟩
      · rw [List.nodup_append]
        refine ⟨sorted_pageIds_nodup hpage_sorted, hnd', ?_⟩
        intro i hi hi'
        obtain ⟨a, ha, rfl⟩ := List.mem_map.mp hi
        have h1 : tl.id ≤ a.id := htl_min a ha
        have h2 : a.id < tl.id := (hsound' a.id hi').1
        omega
      · intro i hi
        rcases List.mem_append.mp hi with hip | hio
        · obtain ⟨a, ha, rfl⟩ := List.mem_map.mp hip
          have hac := (hcand_mem a).mp ((List.take_sublist _ _).subset ha)
          exact ⟨hac.2, a, hac.1, rfl⟩
        · obtain ⟨hlt_tl, t, htmem, htid⟩ := hsound' i hio
          have hilt : i < tl.id := hlt_tl
          have htold : t ∈ accountTxns st aid :=
            accountTxns_applyOps_old st _ aid t htmem (by omega)
          exact ⟨belowCursor_of_lt htl_acct.2 hilt, t, htold, htid⟩
      · intro t ht hbel
        have htc : t ∈ cand := (hcand_mem t).mpr ⟨ht, hbel⟩
        have hsplit2 : t ∈ cand.take (clampLimit limit)
            ∨ t ∈ cand.drop (clampLimit limit) := by
          rw [← List.take_append_drop (clampLimit limit) cand] at htc
          exact List.mem_append.mp htc
        rcases hsplit2 with hp | hd
        · exact List.mem_append_left _ (List.mem_map.mpr ⟨t, hp, rfl⟩)
        · have hlt2 : t.id < tl.id :=
            take_drop_id_lt hcand_sorted (clampLimit limit) tl htl_mem_page t hd
          exact List.mem_append_right _ (hcomp' t (hsup t ht) hlt2)

lemma traverseHistory_spec :
    ∀ (fuel : Nat) (st : Ledger) (aid : Nat) (limit : Int) (cursor : Option String)
      (cv : Option Nat) (inserts : List (List Op)) (out : List Nat),
      txnsSorted st → idsBounded st → cursorRel st aid cursor cv →
      traverseHistory fuel st aid limit cursor inserts = some out →
      out.Nodup
      ∧ (∀ i ∈ out, belowCursor cv i ∧ ∃ t ∈ accountTxns st aid, t.id = i)
      ∧ (∀ t ∈ accountTxns st aid, belowCursor cv t.id → t.id ∈ out) := by
  intro fuel
  induction fuel with
  | zero =>
    intro st aid limit cursor cv inserts out _ _ _ h
    cases h
  | succ fuel ih =>
    intro st aid limit cursor cv inserts out hs hb hcr h
    have hst' := applyOps_sorted_bounded (inserts.headD []) st hs hb
    rcases hfa : findAccount st aid with _ | acct
    · rw [traverseHistory_succ_error fuel st aid limit cursor inserts _
        (listT_notFound hfa)] at h
      cases h
    · rcases cursor with _ | c
      · rcases cv with _ | v
        · refine traverse_ok_spec fuel st aid limit none none inserts out hb
            (accountTxns st aid) (accountTxns_sorted hs aid)
            (fun t => ⟨fun hm => ⟨hm, trivial⟩, fun hm => hm.1⟩)
            (listT_nocursor hfa)
            (fun st' cursor' cv' inserts' out' =>
              ih st' aid limit cursor' cv' inserts' out') hst' h
        · exact hcr.elim
      · rcases cv with _ | v
        · exact hcr.elim
        · obtain ⟨hdec, t₀, ht₀, ht₀id⟩ := hcr
          have hm : (accountTxns st aid).all (fun t => !(t.id == v)) = false := by
            rcases hball : (accountTxns st aid).all (fun t => !(t.id == v)) with _ | _
            · rfl
            · have := List.all_eq_true.mp hball t₀ ht₀
              rw [ht₀id] at this
              simp at this
          refine traverse_ok_spec fuel st aid limit (some c) (some v) inserts out hb
            ((accountTxns st aid).filter (fun t => decide (t.id < v)))
            ((accountTxns_sorted hs aid).filter _)
            ?_ (listT_cursor hfa hdec hm)
            (fun st' cursor' cv' inserts' out' =>
              ih st' aid limit cursor' cv' inserts' out') hst' h
          intro t
          rw [List.mem_filter]
          constructor
          · rintro ⟨h1, h2⟩
            exact ⟨h1, by simpa using h2⟩
          · rintro ⟨h1, h2⟩
            exact ⟨h1, by simpa using h2⟩

/-- Claim C7: a completed cursor traversal of an account history, with
arbitrary deposit batches committed between page fetches, returns a list of
transaction ids that contains no duplicate and includes every transaction id
of the account that existed when the traversal started. -/
theorem pagination_stable_c7 (fuel : Nat) (st : Ledger) (aid : Nat) (limit : Int)
    (inserts : List (List Op)) (out : List Nat)
    (hs : txnsSorted st) (hb : idsBounded st)
    (h : traverseHistory fuel st aid limit none inserts = some out) :
    out.Nodup ∧ ∀ t ∈ accountTxns st aid, t.id ∈ out := by
  obtain ⟨h1, _, h3⟩ := traverseHistory_spec fuel st aid limit none none inserts out
    hs hb trivial h
  exact ⟨h1, fun t ht => h3 t ht trivial⟩

/-- Concrete run of the C7 theorem: a three-transaction account traversed
two pages at a time, with a fourth deposit committed between the pages,
yields ids 3, 2, 1 with no duplicate and no id missed. -/
theorem pagination_stable_c7_witness :
    ([3, 2, 1] : List Nat).Nodup
    ∧ ∀ t ∈ accountTxns ⟨[⟨1, "checking", 600⟩],
        [⟨3, 1, 300, "deposit", "c"⟩, ⟨2, 1, 200, "deposit", "b"⟩,
          ⟨1, 1, 100, "deposit", "a"⟩], 4⟩ 1, t.id ∈ ([3, 2, 1] : List Nat) :=
  pagination_stable_c7 5
    ⟨[⟨1, "checking", 600⟩],
      [⟨3, 1, 300, "deposit", "c"⟩, ⟨2, 1, 200, "deposit", "b"⟩,
        ⟨1, 1, 100, "deposit", "a"⟩], 4⟩ 1 2 [[⟨1, 400, "d"⟩]] [3, 2, 1]
    (by unfold txnsSorted; decide) (by unfold idsBounded; decide) (by decide)
